import Mathlib

/-!
Verification of the hierarchical file-lock subsystem of the MCSM repository.

The TypeScript sources embedded here are
`daemon/src/service/file_lock_service.ts` (path normalization, the lock
registry and its query predicates, the ancestor index, and the mutation
propagators) and `daemon/src/routers/file_router.ts` (the enforcement
middleware, its configuration table, and the event handlers).

Modelling conventions:
* JS strings are modeled as lists of characters (`Path := List Char`);
  `String.prototype.startsWith` becomes `List.isPrefixOf`,
  `String.prototype.substring(n)` becomes `List.drop n`, string
  concatenation becomes list append.
* A JS array field that may be `undefined` is an `Option (List _)`;
  `x || []` becomes `Option.getD [] ` (an empty array is truthy in JS, so
  only `undefined` falls back).
* JS truthiness of a `string | null` value (`if (lockedPath) ...`) is
  `Option.isSome` combined with a non-empty-string test, and is modeled
  exactly where the source tests it.
* A `Set` populated by insertion and drained with `Array.from` is an
  insertion-ordered de-duplication (`dedupFirst`).
* Mutating functions take and return the instance; the external
  `StorageSubsystem.store` persistence call has no observable effect on
  the lock state and is dropped.
-/

namespace MCSM

/-- JS strings are modeled as lists of characters. -/
abbrev Path := List Char

/-- Shorthand turning a Lean string literal into its character list. -/
def str (s : String) : Path := s.data

/-- One step of `replace(/\\/g, "/")`: backslashes become forward slashes. -/
def slashify (p : Path) : Path := p.map fun c => if c = '\\' then '/' else c

/-- The effect of `replace(/\/+/g, "/")`: collapse every run of slashes. -/
def collapseSlashes : Path → Path
  | [] => []
  | [c] => [c]
  | c1 :: c2 :: cs =>
    if c1 = '/' ∧ c2 = '/' then collapseSlashes (c2 :: cs)
    else c1 :: collapseSlashes (c2 :: cs)

/-- The effect of `replace(/\/$/, "")`: strip one trailing slash. -/
def stripTrailingSlash : Path → Path
  | [] => []
  | [c] => if c = '/' then [] else [c]
  | c :: c2 :: cs => c :: stripTrailingSlash (c2 :: cs)

/-- `normalizePath` from `file_lock_service.ts`: backslashes to forward
slashes, collapse repeated slashes, strip a trailing slash. -/
def normalizePath (p : Path) : Path :=
  stripTrailingSlash (collapseSlashes (slashify p))

/-- `"a/b/c".split("/")` for the single-character separator `/`. -/
def splitSlash : Path → List Path
  | [] => [[]]
  | c :: cs =>
    if c = '/' then [] :: splitSlash cs
    else
      match splitSlash cs with
      | [] => [[c]]
      | p :: ps => (c :: p) :: ps

/-- `parts.join("/")`. -/
def joinSlash : List Path → Path
  | [] => []
  | [p] => p
  | p :: q :: ps => p ++ '/' :: joinSlash (q :: ps)

/-- `getParentFolders` from `file_lock_service.ts`: all proper
separator-bounded prefixes of the normalized path. -/
def getParentFolders (filePath : Path) : List Path :=
  let normalized := normalizePath filePath
  let parts := splitSlash normalized
  (List.range (parts.length - 1)).map fun i => joinSlash (parts.take (i + 1))

/-- Insertion-ordered de-duplication: the observable behaviour of filling a
JS `Set` in order and reading it back with `Array.from`. -/
def dedupFirst (l : List Path) : List Path :=
  l.foldl (fun acc x => if x ∈ acc then acc else acc ++ [x]) []

/-- The per-instance configuration fields the lock subsystem reads and
writes; either array may be absent (`undefined`). -/
structure InstanceConfig where
  lockedFiles : Option (List Path)
  foldersWithLockedContent : Option (List Path)
deriving DecidableEq, Repr

/-- A managed instance; only its config participates in lock state. -/
structure Instance where
  config : InstanceConfig
deriving DecidableEq, Repr

/-- The effective lock registry (`instance.config.lockedFiles || []`). -/
def registry (inst : Instance) : List Path := inst.config.lockedFiles.getD []

/-- The effective ancestor index
(`instance.config.foldersWithLockedContent || []`). -/
def ancestorIndex (inst : Instance) : List Path :=
  inst.config.foldersWithLockedContent.getD []

/-- The ancestor closure of a registry: every parent folder of every entry,
de-duplicated in insertion order. -/
def closureList (lockedFiles : List Path) : List Path :=
  dedupFirst (lockedFiles.map getParentFolders).flatten

/-- `updateFoldersWithLockedContent` from `file_lock_service.ts`:
recompute the ancestor index wholesale from the current registry. -/
def updateFoldersWithLockedContent (inst : Instance) : Instance :=
  let lockedFiles := inst.config.lockedFiles.getD []
  if lockedFiles = [] then
    { inst with config := { inst.config with foldersWithLockedContent := some [] } }
  else
    { inst with config := { inst.config with
        foldersWithLockedContent := some (dedupFirst (lockedFiles.map getParentFolders).flatten) } }

/-- `isPathDirectlyLocked`: exact membership on normalized forms, no
inheritance. -/
def isPathDirectlyLocked (inst : Instance) (targetPath : Path) : Bool :=
  let lockedFiles := inst.config.lockedFiles.getD []
  if lockedFiles.isEmpty then false
  else
    let normalizedTarget := normalizePath targetPath
    lockedFiles.any fun lockedPath => normalizedTarget == normalizePath lockedPath

/-- `isPathLocked`: the target equals a (normalized) registry entry, or lies
inside a locked directory (`entry + "/"` is a prefix of the target). -/
def isPathLocked (inst : Instance) (targetPath : Path) : Bool :=
  let lockedFiles := inst.config.lockedFiles.getD []
  if lockedFiles.isEmpty then false
  else
    let normalizedTarget := normalizePath targetPath
    lockedFiles.any fun lockedPath =>
      let normalizedLocked := normalizePath lockedPath
      normalizedTarget == normalizedLocked ||
        (normalizedLocked ++ ['/']).isPrefixOf normalizedTarget

/-- `containsLockedPath`: fast path over the ancestor index, then a detailed
scan returning the first (raw) registry entry strictly inside the target. -/
def containsLockedPath (inst : Instance) (targetPath : Path) : Option Path :=
  let lockedFiles := inst.config.lockedFiles.getD []
  if lockedFiles.isEmpty then none
  else
    let normalizedTarget := normalizePath targetPath
    let foldersWithLockedContent := inst.config.foldersWithLockedContent.getD []
    let hasLockedContent :=
      if 0 < foldersWithLockedContent.length then
        foldersWithLockedContent.any fun markedFolder =>
          markedFolder == normalizedTarget ||
            (normalizedTarget ++ ['/']).isPrefixOf markedFolder
      else true
    if hasLockedContent then
      lockedFiles.find? fun lockedPath =>
        (normalizedTarget ++ ['/']).isPrefixOf (normalizePath lockedPath)
    else none

/-- `isPathOrContentsLocked`: the target itself (echoed back) if locked,
otherwise the first locked entry inside it. -/
def isPathOrContentsLocked (inst : Instance) (targetPath : Path) : Option Path :=
  if isPathLocked inst targetPath then some targetPath
  else containsLockedPath inst targetPath

/-- The `(modified, list)` pass of `removeLockForPath` case 2: erase each
collected nested path that is still present (`indexOf` + `splice`). -/
def eraseAllFound (toRemove : List Path) (st : Bool × List Path) : Bool × List Path :=
  toRemove.foldl
    (fun st p => if p ∈ st.2 then (true, st.2.erase p) else st) st

/-- `removeLockForPath`: remove the direct entry for the normalized target
and every entry nested under it, then rebuild the index if modified. -/
def removeLockForPath (inst : Instance) (targetPath : Path) : Bool × Instance :=
  match inst.config.lockedFiles with
  | none => (false, inst)
  | some lockedFiles =>
    let normalizedTarget := normalizePath targetPath
    let st1 : Bool × List Path :=
      if normalizedTarget ∈ lockedFiles then (true, lockedFiles.erase normalizedTarget)
      else (false, lockedFiles)
    let pathsToRemove := st1.2.filter fun lockedPath =>
      (normalizedTarget ++ ['/']).isPrefixOf lockedPath
    let st2 := eraseAllFound pathsToRemove st1
    if st2.1 then
      (true, updateFoldersWithLockedContent
        { inst with config := { inst.config with lockedFiles := some st2.2 } })
    else (false, inst)

/-- `copyLockForPath`: if the normalized source is a direct entry, add the
normalized destination unless it is already present. -/
def copyLockForPath (inst : Instance) (sourcePath destPath : Path) : Bool × Instance :=
  match inst.config.lockedFiles with
  | none => (false, inst)
  | some lockedFiles =>
    let normalizedSource := normalizePath sourcePath
    let normalizedDest := normalizePath destPath
    if normalizedSource ∈ lockedFiles then
      if normalizedDest ∈ lockedFiles then (true, inst)
      else
        (true, updateFoldersWithLockedContent
          { inst with config := { inst.config with
              lockedFiles := some (lockedFiles ++ [normalizedDest]) } })
    else (false, inst)

/-- One batched update step of `moveLockForPath` case 2: if the old path is
still present, erase it and push the new path unless already present. -/
def applyPathUpdates (updatedPaths : List (Path × Path)) (st : Bool × List Path) :
    Bool × List Path :=
  updatedPaths.foldl
    (fun st pr =>
      if pr.1 ∈ st.2 then
        let afterErase := st.2.erase pr.1
        (true, if pr.2 ∈ afterErase then afterErase else afterErase ++ [pr.2])
      else st) st

/-- `moveLockForPath`: relabel a directly locked source to the destination,
then re-root every entry nested under the source. -/
def moveLockForPath (inst : Instance) (sourcePath destPath : Path) : Bool × Instance :=
  match inst.config.lockedFiles with
  | none => (false, inst)
  | some lockedFiles =>
    let normalizedSource := normalizePath sourcePath
    let normalizedDest := normalizePath destPath
    let st1 : Bool × List Path :=
      if normalizedSource ∈ lockedFiles then
        let afterErase := lockedFiles.erase normalizedSource
        (true, if normalizedDest ∈ afterErase then afterErase else afterErase ++ [normalizedDest])
      else (false, lockedFiles)
    let updatedPaths := (st1.2.filter fun lockedPath =>
        (normalizedSource ++ ['/']).isPrefixOf lockedPath).map fun lockedPath =>
      (lockedPath, normalizedDest ++ '/' :: lockedPath.drop (normalizedSource.length + 1))
    let st2 := applyPathUpdates updatedPaths st1
    if st2.1 then
      (true, updateFoldersWithLockedContent
        { inst with config := { inst.config with lockedFiles := some st2.2 } })
    else (false, inst)

/-- `addLock`: push the normalized target unless already present, then
rebuild the index. -/
def addLock (inst : Instance) (targetPath : Path) : Bool × Instance :=
  let normalizedTarget := normalizePath targetPath
  match inst.config.lockedFiles with
  | none =>
    (true, updateFoldersWithLockedContent
      { inst with config := { inst.config with lockedFiles := some [normalizedTarget] } })
  | some lockedFiles =>
    if normalizedTarget ∈ lockedFiles then (false, inst)
    else
      (true, updateFoldersWithLockedContent
        { inst with config := { inst.config with
            lockedFiles := some (lockedFiles ++ [normalizedTarget]) } })

/-- `removeLock`: erase the normalized target if present, then rebuild the
index; an absent registry is initialized to the empty array. -/
def removeLock (inst : Instance) (targetPath : Path) : Bool × Instance :=
  let normalizedTarget := normalizePath targetPath
  match inst.config.lockedFiles with
  | none =>
    (false, { inst with config := { inst.config with lockedFiles := some [] } })
  | some lockedFiles =>
    if normalizedTarget ∈ lockedFiles then
      (true, updateFoldersWithLockedContent
        { inst with config := { inst.config with
            lockedFiles := some (lockedFiles.erase normalizedTarget) } })
    else (false, inst)

/-- The result shape of `checkLockStatus`. -/
structure LockQueryResult where
  hasLocked : Bool
  lockedPaths : List Path
deriving DecidableEq, Repr

/-- The accumulation loop of `checkLockStatus`; a falsy (empty-string)
result of `isPathOrContentsLocked` is skipped, mirroring `if (lockedPath)`. -/
def checkLockCollect (inst : Instance) (checkContents : Bool) : List Path → List Path
  | [] => []
  | target :: rest =>
    if checkContents then
      match isPathOrContentsLocked inst target with
      | some lockedPath =>
        if lockedPath ≠ [] then lockedPath :: checkLockCollect inst checkContents rest
        else checkLockCollect inst checkContents rest
      | none => checkLockCollect inst checkContents rest
    else
      if isPathLocked inst target then target :: checkLockCollect inst checkContents rest
      else checkLockCollect inst checkContents rest

/-- `checkLockStatus` from `file_lock_service.ts`. -/
def checkLockStatus (inst : Instance) (targets : List Path) (checkContents : Bool) :
    LockQueryResult :=
  let lockedPaths := checkLockCollect inst checkContents targets
  { hasLocked := decide (0 < lockedPaths.length), lockedPaths := lockedPaths }

/-- The request payload fields the file-lock middleware and the extractors
read. `isAdmin` models `data?.isAdmin === true`; an `Option` field models a
possibly missing payload field; the copy/move `targets` carry
`[source, destination]` pairs while delete/compress carry plain lists. -/
structure FileData where
  isAdmin : Bool
  instanceUuid : Option String
  target : Option Path
  pairTargets : Option (List (Path × Path))
  listTargets : Option (List Path)

/-- One entry of `FILE_LOCK_CHECK_CONFIGS` (`file_router.ts`). -/
structure FileLockCheckConfig where
  event : String
  getTargets : FileData → List Path
  checkContents : Bool
  adminOnly : Bool

/-- The `file/list` entry: the listed directory itself, skipping a missing,
empty, root or dot target; contents are not checked. -/
def listConfig : FileLockCheckConfig where
  event := "file/list"
  getTargets := fun data =>
    match data.target with
    | none => []
    | some target => if target = [] ∨ target = ['/'] ∨ target = ['.'] then [] else [target]
  checkContents := false
  adminOnly := false

/-- The `file/edit` entry: the single (truthy) target. -/
def editConfig : FileLockCheckConfig where
  event := "file/edit"
  getTargets := fun data =>
    match data.target with
    | none => []
    | some target => if target = [] then [] else [target]
  checkContents := true
  adminOnly := false

/-- The `file/chmod` entry: the single (truthy) target. -/
def chmodConfig : FileLockCheckConfig where
  event := "file/chmod"
  getTargets := fun data =>
    match data.target with
    | none => []
    | some target => if target = [] then [] else [target]
  checkContents := true
  adminOnly := false

/-- The `file/copy` entry: the source path of each pair. -/
def copyConfig : FileLockCheckConfig where
  event := "file/copy"
  getTargets := fun data =>
    match data.pairTargets with
    | none => []
    | some targets => targets.map Prod.fst
  checkContents := true
  adminOnly := false

/-- The `file/move` entry: the source path of each pair. -/
def moveConfig : FileLockCheckConfig where
  event := "file/move"
  getTargets := fun data =>
    match data.pairTargets with
    | none => []
    | some targets => targets.map Prod.fst
  checkContents := true
  adminOnly := false

/-- The `file/delete` entry: every listed target. -/
def deleteConfig : FileLockCheckConfig where
  event := "file/delete"
  getTargets := fun data =>
    match data.listTargets with
    | none => []
    | some targets => targets
  checkContents := true
  adminOnly := false

/-- The `file/compress` entry: every listed target. -/
def compressConfig : FileLockCheckConfig where
  event := "file/compress"
  getTargets := fun data =>
    match data.listTargets with
    | none => []
    | some targets => targets
  checkContents := true
  adminOnly := false

/-- `FILE_LOCK_CHECK_CONFIGS`: the governed operations, in source order. -/
def FILE_LOCK_CHECK_CONFIGS : List FileLockCheckConfig :=
  [listConfig, editConfig, chmodConfig, copyConfig, moveConfig, deleteConfig, compressConfig]

/-- `findConfig`: first configuration whose event name matches. -/
def findConfig (event : String) : Option FileLockCheckConfig :=
  FILE_LOCK_CHECK_CONFIGS.find? fun config => config.event == event

/-- The scan loop of `checkTargetsLocked`: first target whose check yields a
truthy value; a falsy (empty-string) lock result is skipped. -/
def checkTargetsLockedLoop (inst : Instance) (checkContents : Bool) : List Path → Option Path
  | [] => none
  | target :: rest =>
    if checkContents then
      match isPathOrContentsLocked inst target with
      | some lockedPath =>
        if lockedPath ≠ [] then some lockedPath
        else checkTargetsLockedLoop inst checkContents rest
      | none => checkTargetsLockedLoop inst checkContents rest
    else
      if isPathLocked inst target then some target
      else checkTargetsLockedLoop inst checkContents rest

/-- `checkTargetsLocked` (`file_router.ts`): resolve the instance and return
the first locked path found, or none. -/
def checkTargetsLocked (lookup : String → Option Instance) (instanceUuid : String)
    (targets : List Path) (checkContents : Bool) : Option Path :=
  match lookup instanceUuid with
  | none => none
  | some inst => checkTargetsLockedLoop inst checkContents targets

/-- The observable outcome of the middleware: pass the request on to the
handler, or reject it with the lock-violation error (the handler is then
never invoked). -/
inductive Decision where
  | forward
  | reject
deriving DecidableEq, Repr

/-- `fileLockMiddleware` (`file_router.ts`): governed events are checked
for non-admin callers; everything else is forwarded. `lookup` plays the
role of `InstanceSubsystem.getInstance`. -/
def fileLockMiddleware (lookup : String → Option Instance) (event : String)
    (data : FileData) : Decision :=
  if ¬ (("file/").data.isPrefixOf event.data) then Decision.forward
  else
    match findConfig event with
    | none => Decision.forward
    | some config =>
      if config.adminOnly then Decision.forward
      else if data.isAdmin then Decision.forward
      else
        match data.instanceUuid with
        | none => Decision.forward
        | some instanceUuid =>
          if instanceUuid = "" then Decision.forward
          else
            let targets := config.getTargets data
            if targets.isEmpty then Decision.forward
            else
              match checkTargetsLocked lookup instanceUuid targets config.checkContents with
              | some lockedPath =>
                if lockedPath ≠ [] then Decision.reject else Decision.forward
              | none => Decision.forward

/-- The lock-state effect of the `file/touch` handler: the external file
creation aside, it clears any stale lock at or under the target. -/
def fileTouchHandler (inst : Instance) (target : Path) : Instance :=
  (removeLockForPath inst target).2

/-- The lock-state effect of the `file/mkdir` handler, identical to touch. -/
def fileMkdirHandler (inst : Instance) (target : Path) : Instance :=
  (removeLockForPath inst target).2

/-! Canonical-form predicates: a path is in normalized form when it has no
backslash, no two adjacent slashes, and no trailing slash. -/

/-- No two adjacent forward slashes. -/
def noDoubleSlash : Path → Bool
  | [] => true
  | [_] => true
  | c1 :: c2 :: cs => if c1 = '/' ∧ c2 = '/' then false else noDoubleSlash (c2 :: cs)

/-- No trailing forward slash. -/
def noTrailingSlash : Path → Bool
  | [] => true
  | [c] => if c = '/' then false else true
  | _ :: c2 :: cs => noTrailingSlash (c2 :: cs)

lemma backslash_not_mem_slashify (p : Path) : '\\' ∉ slashify p := by
  intro h
  rcases List.mem_map.mp h with ⟨c, _, hc⟩
  by_cases hb : c = '\\' <;> simp [hb] at hc

lemma slashify_eq_self {p : Path} (h : '\\' ∉ p) : slashify p = p := by
  induction p with
  | nil => rfl
  | cons c cs ih =>
    have hc : c ≠ '\\' := fun hh => h (hh ▸ List.mem_cons_self c cs)
    have hcs : '\\' ∉ cs := fun hh => h (List.mem_cons_of_mem c hh)
    simp [slashify, hc, List.map] at ih ⊢
    exact ih hcs

lemma collapseSlashes_sublist : (p : Path) → (collapseSlashes p).Sublist p
  | [] => List.Sublist.refl []
  | [c] => List.Sublist.refl [c]
  | c1 :: c2 :: cs => by
    rw [collapseSlashes]
    split
    · exact (collapseSlashes_sublist (c2 :: cs)).cons c1
    · exact (collapseSlashes_sublist (c2 :: cs)).cons₂ c1

lemma collapseSlashes_cons : (c : Char) → (cs : Path) →
    ∃ t, collapseSlashes (c :: cs) = c :: t
  | c, [] => ⟨[], rfl⟩
  | c, c2 :: cs => by
    rw [collapseSlashes]
    split
    · rename_i h
      obtain ⟨t, ht⟩ := collapseSlashes_cons c2 cs
      exact ⟨t, by rw [ht, h.1, h.2]⟩
    · exact ⟨collapseSlashes (c2 :: cs), rfl⟩

lemma noDoubleSlash_collapseSlashes : (p : Path) → noDoubleSlash (collapseSlashes p) = true
  | [] => rfl
  | [_] => rfl
  | c1 :: c2 :: cs => by
    rw [collapseSlashes]
    split
    · exact noDoubleSlash_collapseSlashes (c2 :: cs)
    · rename_i h
      obtain ⟨t, ht⟩ := collapseSlashes_cons c2 cs
      have := noDoubleSlash_collapseSlashes (c2 :: cs)
      rw [ht] at this ⊢
      simpa [noDoubleSlash, h] using this

lemma collapseSlashes_eq_self : {p : Path} → noDoubleSlash p = true → collapseSlashes p = p
  | [], _ => rfl
  | [_], _ => rfl
  | c1 :: c2 :: cs, h => by
    rw [noDoubleSlash] at h
    rw [collapseSlashes]
    split
    · rename_i hcc
      simp [hcc] at h
    · rw [collapseSlashes_eq_self (by split at h <;> simp_all)]

lemma stripTrailingSlash_sublist : (p : Path) → (stripTrailingSlash p).Sublist p
  | [] => List.Sublist.refl []
  | [c] => by
    rw [stripTrailingSlash]
    split
    · exact List.nil_sublist [c]
    · exact List.Sublist.refl [c]
  | c :: c2 :: cs => (stripTrailingSlash_sublist (c2 :: cs)).cons₂ c

lemma stripTrailingSlash_eq_self : {p : Path} → noTrailingSlash p = true →
    stripTrailingSlash p = p
  | [], _ => rfl
  | [c], h => by
    rw [noTrailingSlash] at h
    rw [stripTrailingSlash]
    split at h
    · simp at h
    · simp_all
  | c :: c2 :: cs, h => by
    rw [noTrailingSlash] at h
    rw [stripTrailingSlash, stripTrailingSlash_eq_self h]

lemma stripTrailingSlash_eq_nil : (p : Path) → stripTrailingSlash p = [] → p = [] ∨ p = ['/']
  | [], _ => Or.inl rfl
  | [c], h => by
    rw [stripTrailingSlash] at h
    split at h
    · simp_all
    · simp at h
  | c :: c2 :: cs, h => by
    rw [stripTrailingSlash] at h
    simp at h

lemma stripTrailingSlash_cons (c : Char) (cs : Path) :
    stripTrailingSlash (c :: cs) = [] ∨ ∃ t, stripTrailingSlash (c :: cs) = c :: t := by
  match cs with
  | [] =>
    rw [stripTrailingSlash]
    split
    · exact Or.inl rfl
    · exact Or.inr ⟨[], rfl⟩
  | c2 :: cs' => exact Or.inr ⟨stripTrailingSlash (c2 :: cs'), rfl⟩

lemma noDoubleSlash_tail {c : Char} {p : Path} (h : noDoubleSlash (c :: p) = true) :
    noDoubleSlash p = true := by
  match p with
  | [] => rfl
  | c2 :: cs =>
    rw [noDoubleSlash] at h
    split at h
    · simp at h
    · exact h

lemma noDoubleSlash_stripTrailingSlash : {p : Path} → noDoubleSlash p = true →
    noDoubleSlash (stripTrailingSlash p) = true
  | [], _ => rfl
  | [c], _ => by
    rw [stripTrailingSlash]
    split <;> rfl
  | c :: c2 :: cs, h => by
    rw [stripTrailingSlash]
    have htail := noDoubleSlash_stripTrailingSlash (noDoubleSlash_tail h)
    rcases stripTrailingSlash_cons c2 cs with hnil | ⟨t, ht⟩
    · rw [hnil]; rfl
    · rw [ht] at htail ⊢
      rw [noDoubleSlash] at h ⊢
      split at h
      · simp at h
      · simp [*]

lemma noTrailingSlash_stripTrailingSlash : {p : Path} → noDoubleSlash p = true →
    noTrailingSlash (stripTrailingSlash p) = true
  | [], _ => rfl
  | [c], _ => by
    rw [stripTrailingSlash]
    split
    · rfl
    · rw [noTrailingSlash]; simp_all
  | c :: c2 :: cs, h => by
    rw [stripTrailingSlash]
    have htail := noTrailingSlash_stripTrailingSlash (noDoubleSlash_tail h)
    rcases stripTrailingSlash_cons c2 cs with hnil | ⟨t, ht⟩
    · rw [hnil]
      rcases stripTrailingSlash_eq_nil _ hnil with h2 | h2
      · simp at h2
      · have hc2 : c2 = '/' := by
          have := congrArg (fun l => l.head?) h2
          simpa using this
        rw [noDoubleSlash] at h
        split at h
        · simp at h
        · rename_i hcc
          rw [noTrailingSlash]
          split
          · rename_i hc
            exact absurd ⟨hc, hc2⟩ hcc
          · rfl
    · rw [ht] at htail ⊢
      rw [noTrailingSlash]
      exact htail

lemma normalizePath_subset (p : Path) : normalizePath p ⊆ slashify p := fun _ hx =>
  (collapseSlashes_sublist (slashify p)).subset
    ((stripTrailingSlash_sublist (collapseSlashes (slashify p))).subset hx)

lemma backslash_not_mem_normalizePath (p : Path) : '\\' ∉ normalizePath p := fun h =>
  backslash_not_mem_slashify p (normalizePath_subset p h)

lemma noDoubleSlash_normalizePath (p : Path) : noDoubleSlash (normalizePath p) = true :=
  noDoubleSlash_stripTrailingSlash (noDoubleSlash_collapseSlashes (slashify p))

lemma noTrailingSlash_normalizePath (p : Path) : noTrailingSlash (normalizePath p) = true :=
  noTrailingSlash_stripTrailingSlash (noDoubleSlash_collapseSlashes (slashify p))

lemma normalizePath_eq_self {p : Path} (h1 : '\\' ∉ p) (h2 : noDoubleSlash p = true)
    (h3 : noTrailingSlash p = true) : normalizePath p = p := by
  rw [normalizePath, slashify_eq_self h1, collapseSlashes_eq_self h2,
    stripTrailingSlash_eq_self h3]

lemma normalizePath_idem (p : Path) : normalizePath (normalizePath p) = normalizePath p :=
  normalizePath_eq_self (backslash_not_mem_normalizePath p) (noDoubleSlash_normalizePath p)
    (noTrailingSlash_normalizePath p)

/-! Facts about appending below a separator, used to show that the re-rooted
paths produced by a move are themselves in normalized form. -/

lemma noDoubleSlash_suffix : (a : Path) → {b : Path} → noDoubleSlash (a ++ b) = true →
    noDoubleSlash b = true
  | [], _, h => h
  | _ :: cs, _, h => noDoubleSlash_suffix cs (noDoubleSlash_tail h)

lemma noTrailingSlash_suffix : (a : Path) → {b : Path} → b ≠ [] →
    noTrailingSlash (a ++ b) = true → noTrailingSlash b = true
  | [], _, _, h => h
  | [c], b, hb, h => by
    match b, hb with
    | c2 :: cs, _ =>
      rw [List.singleton_append, noTrailingSlash] at h
      exact h
  | c :: c2 :: cs, b, hb, h => by
    rw [List.cons_append, List.cons_append, noTrailingSlash] at h
    rw [← List.cons_append] at h
    exact noTrailingSlash_suffix (c2 :: cs) hb h

lemma noTrailingSlash_append_single_slash : (a : Path) →
    noTrailingSlash (a ++ ['/']) = false
  | [] => by decide
  | [c] => by
    rw [List.singleton_append, noTrailingSlash]
    decide
  | c :: c2 :: cs => by
    rw [List.cons_append, List.cons_append, noTrailingSlash, ← List.cons_append]
    exact noTrailingSlash_append_single_slash (c2 :: cs)

lemma noDoubleSlash_append_slash : (d : Path) → {rest : Path} →
    noDoubleSlash d = true → noTrailingSlash d = true →
    noDoubleSlash rest = true → rest.head? ≠ some '/' →
    noDoubleSlash (d ++ '/' :: rest) = true
  | [], rest, _, _, h3, h4 => by
    match rest with
    | [] => rfl
    | r :: rs =>
      rw [List.nil_append, noDoubleSlash]
      have hr : r ≠ '/' := by simpa using h4
      simp only [hr, and_false, if_false]
      exact h3
  | [c], rest, _, h2, h3, h4 => by
    have hc : c ≠ '/' := by
      rw [noTrailingSlash] at h2
      split at h2
      · simp at h2
      · assumption
    rw [List.singleton_append, noDoubleSlash]
    simp only [hc, false_and, if_false]
    exact noDoubleSlash_append_slash [] rfl rfl h3 h4
  | c :: c2 :: cs, rest, h1, h2, h3, h4 => by
    rw [noDoubleSlash] at h1
    split at h1
    · simp at h1
    · rename_i hcc
      rw [List.cons_append, List.cons_append, noDoubleSlash, ← List.cons_append]
      simp only [hcc, if_false]
      rw [noTrailingSlash] at h2
      exact noDoubleSlash_append_slash (c2 :: cs) h1 h2 h3 h4

lemma noTrailingSlash_append_slash : (d : Path) → {rest : Path} → rest ≠ [] →
    noTrailingSlash rest = true → noTrailingSlash (d ++ '/' :: rest) = true
  | [], rest, hne, h => by
    match rest, hne with
    | r :: rs, _ =>
      rw [List.nil_append, noTrailingSlash]
      exact h
  | [c], rest, hne, h => by
    rw [List.singleton_append, noTrailingSlash]
    have := noTrailingSlash_append_slash [] hne h
    simpa using this
  | c :: c2 :: cs, rest, hne, h => by
    rw [List.cons_append, List.cons_append, noTrailingSlash, ← List.cons_append]
    exact noTrailingSlash_append_slash (c2 :: cs) hne h

/-- A normalized path that extends `s ++ "/"` decomposes as
`s ++ "/" ++ rest` with `rest` nonempty, slash-free at its head, and itself
fully normalized below the separator. -/
lemma rewritten_path_normalized {d l s : Path} (hd : normalizePath d = d)
    (hl : normalizePath l = l) (hpre : (s ++ ['/']) <+: l) :
    normalizePath (d ++ '/' :: l.drop (s.length + 1)) = d ++ '/' :: l.drop (s.length + 1) := by
  obtain ⟨t, ht⟩ := hpre
  have hlen : (s ++ ['/']).length = s.length + 1 := by simp
  have hdrop : l.drop (s.length + 1) = t := by
    rw [← ht, ← hlen, List.drop_left]
  rw [hdrop]
  have hlt : l = s ++ '/' :: t := by rw [← ht]; simp
  -- properties of l transferred to t
  have hlBS : '\\' ∉ l := hl ▸ backslash_not_mem_normalizePath l
  have hlDS : noDoubleSlash l = true := hl ▸ noDoubleSlash_normalizePath l
  have hlTS : noTrailingSlash l = true := hl ▸ noTrailingSlash_normalizePath l
  have htne : t ≠ [] := by
    intro hnil
    rw [hlt, hnil] at hlTS
    exact absurd hlTS (by simp [noTrailingSlash_append_single_slash])
  have htDS : noDoubleSlash t = true := by
    have := noDoubleSlash_suffix s (hlt ▸ hlDS)
    exact noDoubleSlash_tail this
  have hthead : t.head? ≠ some '/' := by
    have hslash : noDoubleSlash ('/' :: t) = true := noDoubleSlash_suffix s (hlt ▸ hlDS)
    match t, htne with
    | r :: rs, _ =>
      rw [noDoubleSlash] at hslash
      split at hslash
      · simp at hslash
      · rename_i hcc
        simp only [List.head?]
        intro hsome
        exact hcc ⟨rfl, by simpa using hsome⟩
  have htTS : noTrailingSlash t = true := by
    have : noTrailingSlash ('/' :: t) = true := by
      have := hlt ▸ hlTS
      exact noTrailingSlash_suffix s (by simp) this
    match t, htne with
    | r :: rs, _ =>
      rw [noTrailingSlash] at this
      exact this
  -- properties of d
  have hdBS : '\\' ∉ d := hd ▸ backslash_not_mem_normalizePath d
  have hdDS : noDoubleSlash d = true := hd ▸ noDoubleSlash_normalizePath d
  have hdTS : noTrailingSlash d = true := hd ▸ noTrailingSlash_normalizePath d
  have htBS : '\\' ∉ t := fun hm => hlBS (hlt ▸ List.mem_append_right s (List.mem_cons_of_mem '/' hm))
  refine normalizePath_eq_self ?_ ?_ ?_
  · intro hm
    rcases List.mem_append.mp hm with hm | hm
    · exact hdBS hm
    · rcases List.mem_cons.mp hm with hm | hm
      · simp at hm
      · exact htBS hm
  · exact noDoubleSlash_append_slash d hdDS hdTS htDS hthead
  · exact noTrailingSlash_append_slash d htne htTS

/-! Splitting on the separator and joining back, and the resulting
description of `getParentFolders`. -/

lemma splitSlash_ne_nil : (p : Path) → splitSlash p ≠ []
  | [] => by simp [splitSlash]
  | c :: cs => by
    rw [splitSlash]
    split
    · simp
    · split
      · simp
      · simp

lemma joinSlash_splitSlash : (p : Path) → joinSlash (splitSlash p) = p
  | [] => rfl
  | c :: cs => by
    rw [splitSlash]
    have ih := joinSlash_splitSlash cs
    split
    · rename_i hc
      match hsp : splitSlash cs, splitSlash_ne_nil cs with
      | q :: qs, _ =>
        rw [hsp] at ih
        rw [joinSlash, hc, ih]
        simp
    · rename_i hc
      match hsp : splitSlash cs, splitSlash_ne_nil cs with
      | q :: qs, _ =>
        rw [hsp] at ih
        match qs with
        | [] =>
          rw [joinSlash] at ih ⊢
          rw [ih]
        | q2 :: qs' =>
          rw [joinSlash] at ih ⊢
          rw [List.cons_append, ih]

lemma splitSlash_append : (a b : Path) → splitSlash (a ++ '/' :: b) = splitSlash a ++ splitSlash b
  | [], b => by rw [List.nil_append, splitSlash]; simp [splitSlash]
  | c :: cs, b => by
    rw [List.cons_append, splitSlash, splitSlash]
    split
    · rw [splitSlash_append cs b]
      simp
    · match hsp : splitSlash (cs ++ '/' :: b), splitSlash_ne_nil (cs ++ '/' :: b) with
      | q :: qs, _ =>
        rw [splitSlash_append cs b] at hsp
        match hsp2 : splitSlash cs, splitSlash_ne_nil cs with
        | r :: rs, _ =>
          rw [hsp2, List.cons_append] at hsp
          obtain ⟨hq, hqs⟩ := List.cons.inj hsp
          rw [hq]
          show (c :: q) :: qs = (c :: q) :: rs ++ splitSlash b
          rw [List.cons_append, hqs]

/-- The core index-completeness fact: if a normalized target extended by a
separator prefixes the normalized form of a path, then the target is one of
that path's parent folders. -/
lemma target_mem_getParentFolders {nt l : Path}
    (hpre : (nt ++ ['/']) <+: normalizePath l) : nt ∈ getParentFolders l := by
  obtain ⟨t, ht⟩ := hpre
  have hlt : normalizePath l = nt ++ '/' :: t := by rw [← ht]; simp
  show nt ∈ (List.range ((splitSlash (normalizePath l)).length - 1)).map
    fun i => joinSlash ((splitSlash (normalizePath l)).take (i + 1))
  rw [hlt, splitSlash_append]
  set parts1 := splitSlash nt with hp1
  set parts2 := splitSlash t with hp2
  have h1ne : parts1 ≠ [] := splitSlash_ne_nil nt
  have h2ne : parts2 ≠ [] := splitSlash_ne_nil t
  have h1len : 1 ≤ parts1.length := by
    cases hq : parts1
    · exact absurd hq h1ne
    · simp
  have h2len : 1 ≤ parts2.length := by
    cases hq : parts2
    · exact absurd hq h2ne
    · simp
  refine List.mem_map.mpr ⟨parts1.length - 1, ?_, ?_⟩
  · refine List.mem_range.mpr ?_
    have : parts1.length - 1 < parts1.length := by omega
    calc parts1.length - 1 < parts1.length := this
      _ ≤ (parts1 ++ parts2).length - 1 := by
        rw [List.length_append]; omega
  · have hsucc : parts1.length - 1 + 1 = parts1.length := by omega
    rw [hsucc, List.take_left, joinSlash_splitSlash]

lemma mem_dedupFirst_aux (x : Path) : (l acc : List Path) →
    (x ∈ l.foldl (fun acc y => if y ∈ acc then acc else acc ++ [y]) acc ↔ x ∈ acc ∨ x ∈ l)
  | [], acc => by simp
  | y :: ys, acc => by
    rw [List.foldl_cons]
    rw [mem_dedupFirst_aux x ys]
    by_cases hy : y ∈ acc
    · simp only [hy, if_true]
      constructor
      · rintro (h | h)
        · exact Or.inl h
        · exact Or.inr (List.mem_cons_of_mem y h)
      · rintro (h | h)
        · exact Or.inl h
        · rcases List.mem_cons.mp h with h | h
          · exact Or.inl (h ▸ hy)
          · exact Or.inr h
    · simp only [hy, if_false]
      constructor
      · rintro (h | h)
        · rcases List.mem_append.mp h with h | h
          · exact Or.inl h
          · simp at h
            exact Or.inr (List.mem_cons.mpr (Or.inl h))
        · exact Or.inr (List.mem_cons_of_mem y h)
      · rintro (h | h)
        · exact Or.inl (List.mem_append_left _ h)
        · rcases List.mem_cons.mp h with h | h
          · exact Or.inl (List.mem_append_right _ (by simp [h]))
          · exact Or.inr h

lemma mem_dedupFirst {x : Path} {l : List Path} : x ∈ dedupFirst l ↔ x ∈ l := by
  rw [dedupFirst, mem_dedupFirst_aux]
  simp

lemma mem_closureList {x : Path} {lockedFiles : List Path} :
    x ∈ closureList lockedFiles ↔ ∃ l ∈ lockedFiles, x ∈ getParentFolders l := by
  rw [closureList, mem_dedupFirst]
  simp [List.mem_flatten]

lemma registry_updateFolders (inst : Instance) :
    registry (updateFoldersWithLockedContent inst) = registry inst := by
  rw [updateFoldersWithLockedContent]
  simp only [registry]
  split <;> rfl

lemma lockedFiles_updateFolders (inst : Instance) :
    (updateFoldersWithLockedContent inst).config.lockedFiles = inst.config.lockedFiles := by
  rw [updateFoldersWithLockedContent]
  split <;> rfl

lemma ancestorIndex_updateFolders (inst : Instance) :
    ancestorIndex (updateFoldersWithLockedContent inst) = closureList (registry inst) := by
  rw [updateFoldersWithLockedContent]
  simp only [ancestorIndex, registry]
  split
  · rename_i h
    rw [h]
    rfl
  · rfl

/-! Behaviour of the two batched-update folds. -/

lemma nodup_append_singleton {l : List Path} {a : Path} (h : l.Nodup) (ha : a ∉ l) :
    (l ++ [a]).Nodup := by
  refine h.append (List.nodup_singleton a) ?_
  intro y hy hya
  simp only [List.mem_singleton] at hya
  subst hya
  exact ha hy

lemma eraseAllFound_cons (r : Path) (rm : List Path) (st : Bool × List Path) :
    eraseAllFound (r :: rm) st =
      eraseAllFound rm (if r ∈ st.2 then (true, st.2.erase r) else st) := by
  rw [eraseAllFound, eraseAllFound, List.foldl_cons]

lemma eraseAllFound_subset (x : Path) : (rm : List Path) → (st : Bool × List Path) →
    x ∈ (eraseAllFound rm st).2 → x ∈ st.2
  | [], st, h => h
  | r :: rm, st, h => by
    rw [eraseAllFound_cons] at h
    have := eraseAllFound_subset x rm _ h
    split at this
    · exact List.erase_subset _ _ this
    · exact this

lemma eraseAllFound_nodup : (rm : List Path) → (st : Bool × List Path) →
    st.2.Nodup → (eraseAllFound rm st).2.Nodup
  | [], _, h => h
  | r :: rm, st, h => by
    rw [eraseAllFound_cons]
    refine eraseAllFound_nodup rm _ ?_
    split
    · exact h.erase r
    · exact h

lemma eraseAllFound_mem (x : Path) : (rm : List Path) → (st : Bool × List Path) →
    st.2.Nodup → rm.Nodup → (∀ r ∈ rm, r ∈ st.2) →
    (x ∈ (eraseAllFound rm st).2 ↔ x ∈ st.2 ∧ x ∉ rm)
  | [], st, _, _, _ => by simp [eraseAllFound]
  | r :: rm, st, hnd, hrm, hsub => by
    rw [eraseAllFound_cons]
    have hr : r ∈ st.2 := hsub r (List.mem_cons_self r rm)
    simp only [hr, if_true]
    have hrm' : rm.Nodup := (List.nodup_cons.mp hrm).2
    have hrnotin : r ∉ rm := (List.nodup_cons.mp hrm).1
    have hsub' : ∀ q ∈ rm, q ∈ st.2.erase r := by
      intro q hq
      refine (List.mem_erase_of_ne ?_).mpr (hsub q (List.mem_cons_of_mem r hq))
      intro he
      subst he
      exact hrnotin hq
    rw [eraseAllFound_mem x rm (true, st.2.erase r) (hnd.erase r) hrm' hsub']
    simp only [hnd.mem_erase_iff]
    constructor
    · rintro ⟨⟨hne, hmem⟩, hnotin⟩
      exact ⟨hmem, by simp [hne, hnotin]⟩
    · rintro ⟨hmem, hnotin⟩
      simp only [List.mem_cons, not_or] at hnotin
      exact ⟨⟨hnotin.1, hmem⟩, hnotin.2⟩

lemma eraseAllFound_fst : (rm : List Path) → (st : Bool × List Path) →
    rm.Nodup → (∀ r ∈ rm, r ∈ st.2) →
    ((eraseAllFound rm st).1 = (st.1 || !rm.isEmpty))
  | [], st, _, _ => by simp [eraseAllFound]
  | r :: rm, st, hrm, hsub => by
    rw [eraseAllFound_cons]
    have hr : r ∈ st.2 := hsub r (List.mem_cons_self r rm)
    simp only [hr, if_true]
    have hrm' : rm.Nodup := (List.nodup_cons.mp hrm).2
    have hrnotin : r ∉ rm := (List.nodup_cons.mp hrm).1
    have hsub' : ∀ q ∈ rm, q ∈ st.2.erase r := by
      intro q hq
      refine (List.mem_erase_of_ne ?_).mpr (hsub q (List.mem_cons_of_mem r hq))
      intro he
      subst he
      exact hrnotin hq
    rw [eraseAllFound_fst rm (true, st.2.erase r) hrm' hsub']
    simp

lemma applyPathUpdates_cons (pr : Path × Path) (pairs : List (Path × Path))
    (st : Bool × List Path) :
    applyPathUpdates (pr :: pairs) st =
      applyPathUpdates pairs
        (if pr.1 ∈ st.2 then
          (true, if pr.2 ∈ st.2.erase pr.1 then st.2.erase pr.1 else st.2.erase pr.1 ++ [pr.2])
        else st) := by
  rw [applyPathUpdates, applyPathUpdates, List.foldl_cons]

lemma applyPathUpdates_subset (x : Path) : (pairs : List (Path × Path)) →
    (st : Bool × List Path) → x ∈ (applyPathUpdates pairs st).2 →
    x ∈ st.2 ∨ x ∈ pairs.map Prod.snd
  | [], st, h => Or.inl h
  | pr :: pairs, st, h => by
    rw [applyPathUpdates_cons] at h
    rcases applyPathUpdates_subset x pairs _ h with hin | hin
    · split at hin
      · split at hin
        · exact Or.inl (List.erase_subset _ _ hin)
        · rcases List.mem_append.mp hin with hin | hin
          · exact Or.inl (List.erase_subset _ _ hin)
          · simp only [List.mem_singleton] at hin
            exact Or.inr (by simp [hin])
      · exact Or.inl hin
    · exact Or.inr (List.mem_cons_of_mem _ (by simpa using hin))

lemma applyPathUpdates_nodup : (pairs : List (Path × Path)) → (st : Bool × List Path) →
    st.2.Nodup → (applyPathUpdates pairs st).2.Nodup
  | [], _, h => h
  | pr :: pairs, st, h => by
    rw [applyPathUpdates_cons]
    refine applyPathUpdates_nodup pairs _ ?_
    split
    · split
      · exact h.erase pr.1
      · rename_i hnotin
        exact nodup_append_singleton (h.erase pr.1) hnotin
    · exact h

lemma applyPathUpdates_true : (pairs : List (Path × Path)) → (st : Bool × List Path) →
    st.1 = true → (applyPathUpdates pairs st).1 = true
  | [], _, h => h
  | pr :: pairs, st, h => by
    rw [applyPathUpdates_cons]
    refine applyPathUpdates_true pairs _ ?_
    split
    · rfl
    · exact h

lemma applyPathUpdates_false : (pairs : List (Path × Path)) → (st : Bool × List Path) →
    (applyPathUpdates pairs st).1 = false →
    (applyPathUpdates pairs st).2 = st.2 ∧ st.1 = false ∧ ∀ pr ∈ pairs, pr.1 ∉ st.2
  | [], st, h => ⟨rfl, h, by simp⟩
  | pr :: pairs, st, h => by
    rw [applyPathUpdates_cons] at h ⊢
    by_cases hmem : pr.1 ∈ st.2
    · simp only [hmem, if_true] at h
      rw [applyPathUpdates_true pairs _ rfl] at h
      simp at h
    · simp only [hmem, if_false] at h ⊢
      obtain ⟨h1, h2, h3⟩ := applyPathUpdates_false pairs st h
      refine ⟨h1, h2, ?_⟩
      intro qr hqr
      rcases List.mem_cons.mp hqr with hqr | hqr
      · exact hqr ▸ hmem
      · exact h3 qr hqr

/-- Membership after the batched move update, in the disjoint case: every
old path is deleted and every new path is present. -/
lemma applyPathUpdates_mem (x : Path) : (pairs : List (Path × Path)) →
    (st : Bool × List Path) → st.2.Nodup → (pairs.map Prod.fst).Nodup →
    (∀ pr ∈ pairs, pr.1 ∈ st.2) →
    (∀ pr ∈ pairs, ∀ qr ∈ pairs, pr.2 ≠ qr.1) →
    (x ∈ (applyPathUpdates pairs st).2 ↔
      (x ∈ st.2 ∧ x ∉ pairs.map Prod.fst) ∨ x ∈ pairs.map Prod.snd)
  | [], st, _, _, _, _ => by simp [applyPathUpdates]
  | pr :: pairs, st, hnd, hfst, hsub, hdisj => by
    rw [applyPathUpdates_cons]
    have hpr : pr.1 ∈ st.2 := hsub pr (List.mem_cons_self pr pairs)
    simp only [hpr, if_true]
    have hfst' : (pairs.map Prod.fst).Nodup := by
      rw [List.map_cons] at hfst
      exact (List.nodup_cons.mp hfst).2
    have hprnotin : pr.1 ∉ pairs.map Prod.fst := by
      rw [List.map_cons] at hfst
      exact (List.nodup_cons.mp hfst).1
    have hsnd_ne_fst : pr.2 ≠ pr.1 :=
      hdisj pr (List.mem_cons_self pr pairs) pr (List.mem_cons_self pr pairs)
    set acc2 := if pr.2 ∈ st.2.erase pr.1 then st.2.erase pr.1 else st.2.erase pr.1 ++ [pr.2]
      with hacc2
    have hacc2nd : acc2.Nodup := by
      rw [hacc2]
      split
      · exact hnd.erase pr.1
      · rename_i hnotin
        exact nodup_append_singleton (hnd.erase pr.1) hnotin
    have hacc2mem : ∀ y, y ∈ acc2 ↔ (y ∈ st.2 ∧ y ≠ pr.1) ∨ y = pr.2 := by
      intro y
      rw [hacc2]
      split
      · rename_i hin
        rw [hnd.mem_erase_iff]
        constructor
        · rintro ⟨hne, hmem⟩
          exact Or.inl ⟨hmem, hne⟩
        · rintro (⟨hmem, hne⟩ | heq)
          · exact ⟨hne, hmem⟩
          · rw [heq]
            exact hnd.mem_erase_iff.mp hin
      · rw [List.mem_append, hnd.mem_erase_iff]
        constructor
        · rintro (⟨hne, hmem⟩ | hy)
          · exact Or.inl ⟨hmem, hne⟩
          · exact Or.inr (by simpa using hy)
        · rintro (⟨hmem, hne⟩ | heq)
          · exact Or.inl ⟨hne, hmem⟩
          · exact Or.inr (by simp [heq])
    have hsub' : ∀ qr ∈ pairs, qr.1 ∈ acc2 := by
      intro qr hqr
      have hq1 : qr.1 ∈ st.2 := hsub qr (List.mem_cons_of_mem pr hqr)
      have hq1ne : qr.1 ≠ pr.1 := by
        intro he
        exact hprnotin (he ▸ List.mem_map_of_mem Prod.fst hqr)
      exact (hacc2mem qr.1).mpr (Or.inl ⟨hq1, hq1ne⟩)
    have hdisj' : ∀ p ∈ pairs, ∀ q ∈ pairs, p.2 ≠ q.1 := fun p hp q hq =>
      hdisj p (List.mem_cons_of_mem pr hp) q (List.mem_cons_of_mem pr hq)
    rw [applyPathUpdates_mem x pairs (true, acc2) hacc2nd hfst' hsub' hdisj']
    simp only [hacc2mem x, List.map_cons, List.mem_cons]
    constructor
    · rintro (⟨(⟨hmem, hne⟩ | heq), hnotin⟩ | hin)
      · exact Or.inl ⟨hmem, by simp [hne, hnotin]⟩
      · exact Or.inr (Or.inl heq)
      · exact Or.inr (Or.inr hin)
    · rintro (⟨hmem, hnotin⟩ | heq | hin)
      · simp only [List.mem_cons, not_or] at hnotin
        exact Or.inl ⟨Or.inl ⟨hmem, hnotin.1⟩, hnotin.2⟩
      · refine Or.inl ⟨Or.inr heq, ?_⟩
        intro hx
        rw [heq] at hx
        rcases List.mem_map.mp hx with ⟨qr, hqr, hq1⟩
        exact hdisj pr (List.mem_cons_self pr pairs) qr (List.mem_cons_of_mem pr hqr) hq1.symm
      · exact Or.inr hin

/-- Membership after the batched move update when every pair rewrites a path
to itself (the degenerate source-equals-destination case). -/
lemma applyPathUpdates_mem_id (x : Path) : (pairs : List (Path × Path)) →
    (st : Bool × List Path) → st.2.Nodup → (pairs.map Prod.fst).Nodup →
    (∀ pr ∈ pairs, pr.1 ∈ st.2) → (∀ pr ∈ pairs, pr.2 = pr.1) →
    (x ∈ (applyPathUpdates pairs st).2 ↔ x ∈ st.2)
  | [], _, _, _, _, _ => by simp [applyPathUpdates]
  | pr :: pairs, st, hnd, hfst, hsub, hid => by
    rw [applyPathUpdates_cons]
    have hpr : pr.1 ∈ st.2 := hsub pr (List.mem_cons_self pr pairs)
    simp only [hpr, if_true]
    have hpr2 : pr.2 = pr.1 := hid pr (List.mem_cons_self pr pairs)
    have herase : pr.2 ∉ st.2.erase pr.1 := by
      rw [hpr2]
      intro hin
      exact absurd rfl (hnd.mem_erase_iff.mp hin).1
    simp only [herase, if_false]
    have hfst' : (pairs.map Prod.fst).Nodup := by
      rw [List.map_cons] at hfst
      exact (List.nodup_cons.mp hfst).2
    have hprnotin : pr.1 ∉ pairs.map Prod.fst := by
      rw [List.map_cons] at hfst
      exact (List.nodup_cons.mp hfst).1
    have hnd' : (st.2.erase pr.1 ++ [pr.2]).Nodup :=
      nodup_append_singleton (hnd.erase pr.1) herase
    have hmem' : ∀ y, y ∈ st.2.erase pr.1 ++ [pr.2] ↔ y ∈ st.2 := by
      intro y
      rw [List.mem_append, hnd.mem_erase_iff, hpr2]
      constructor
      · rintro (⟨_, hmem⟩ | hy)
        · exact hmem
        · simp only [List.mem_singleton] at hy
          exact hy ▸ hpr
      · intro hmem
        by_cases hy : y = pr.1
        · exact Or.inr (by simp [hy])
        · exact Or.inl ⟨hy, hmem⟩
    have hsub' : ∀ qr ∈ pairs, qr.1 ∈ st.2.erase pr.1 ++ [pr.2] := fun qr hqr =>
      (hmem' qr.1).mpr (hsub qr (List.mem_cons_of_mem pr hqr))
    have hid' : ∀ qr ∈ pairs, qr.2 = qr.1 := fun qr hqr =>
      hid qr (List.mem_cons_of_mem pr hqr)
    rw [applyPathUpdates_mem_id x pairs _ hnd' hfst' hsub' hid']
    exact hmem' x

/-! Bridges between the executable query predicates and their logical
descriptions. -/

lemma isPathLocked_spec (inst : Instance) (targetPath : Path) :
    isPathLocked inst targetPath = true ↔
      ∃ e ∈ registry inst, normalizePath targetPath = normalizePath e ∨
        (normalizePath e ++ ['/']) <+: normalizePath targetPath := by
  rw [isPathLocked]
  simp only [registry] at *
  by_cases h : (inst.config.lockedFiles.getD []).isEmpty
  · rw [List.isEmpty_iff] at h
    simp [h]
  · have hne : ¬ ((inst.config.lockedFiles.getD []).isEmpty = true) := h
    simp only [hne, Bool.false_eq_true, if_false, List.any_eq_true, registry]
    constructor
    · rintro ⟨e, he, hp⟩
      refine ⟨e, he, ?_⟩
      rcases Bool.or_eq_true_iff.mp hp with hp | hp
      · exact Or.inl (by simpa using hp)
      · exact Or.inr (List.isPrefixOf_iff_prefix.mp hp)
    · rintro ⟨e, he, hp⟩
      refine ⟨e, he, ?_⟩
      rcases hp with hp | hp
      · exact Bool.or_eq_true_iff.mpr (Or.inl (by simpa using hp))
      · exact Bool.or_eq_true_iff.mpr (Or.inr (List.isPrefixOf_iff_prefix.mpr hp))

/-- C6: `isPathLocked` is exactly the separator-bounded inheritance test
over the registry: the normalized target equals an entry, or an entry
extended by the separator prefixes the normalized target. Registry entries
are in normalized form, per the data-model invariant. -/
theorem isPathLocked_iff_spec (inst : Instance) (targetPath : Path)
    (hnorm : ∀ e ∈ registry inst, normalizePath e = e) :
    isPathLocked inst targetPath = true ↔
      ∃ e ∈ registry inst, normalizePath targetPath = e ∨
        (e ++ ['/']) <+: normalizePath targetPath := by
  rw [isPathLocked_spec]
  constructor
  · rintro ⟨e, he, hp⟩
    exact ⟨e, he, by rw [← hnorm e he]; exact hp⟩
  · rintro ⟨e, he, hp⟩
    exact ⟨e, he, by rw [hnorm e he]; exact hp⟩

/-- Witness for C6 at a one-entry registry: the entry `a` locks `a/b` while
the sibling `ab` stays unlocked (no raw substring matching). -/
theorem isPathLocked_iff_spec_witness :
    isPathLocked ⟨⟨some [str "a"], some []⟩⟩ (str "a/b") = true ∧
      isPathLocked ⟨⟨some [str "a"], some []⟩⟩ (str "ab") = false := by
  constructor
  · exact (isPathLocked_iff_spec ⟨⟨some [str "a"], some []⟩⟩ (str "a/b") (by decide)).mpr
      ⟨str "a", by decide, Or.inr (by decide)⟩
  · by_contra h
    have h2 : isPathLocked ⟨⟨some [str "a"], some []⟩⟩ (str "ab") = true := by
      revert h
      decide
    obtain ⟨e, he, hp⟩ := (isPathLocked_iff_spec ⟨⟨some [str "a"], some []⟩⟩ (str "ab")
      (by decide)).mp h2
    have he' : e = str "a" := by simpa [registry] using he
    subst he'
    rcases hp with hp | hp
    · exact absurd hp (by decide)
    · exact absurd hp (by decide)

/-- C9: a copy reports success exactly when the normalized source is a
direct registry entry; it then adds the normalized destination idempotently
and adds nothing else — in particular no lock on any nested descendant of
the source is duplicated below the destination. -/
theorem copyLockForPath_spec (inst : Instance) (sourcePath destPath : Path) :
    ((copyLockForPath inst sourcePath destPath).1 = true ↔
      normalizePath sourcePath ∈ registry inst)
    ∧ registry (copyLockForPath inst sourcePath destPath).2 =
        (if normalizePath sourcePath ∈ registry inst ∧
            normalizePath destPath ∉ registry inst
         then registry inst ++ [normalizePath destPath] else registry inst)
    ∧ (∀ x ∈ registry (copyLockForPath inst sourcePath destPath).2,
        x ∈ registry inst ∨ x = normalizePath destPath) := by
  rcases hlf : inst.config.lockedFiles with _ | lf
  · have hreg : registry inst = [] := by rw [registry, hlf]; rfl
    rw [copyLockForPath, hlf]
    simp [hreg]
  · have hreg : registry inst = lf := by rw [registry, hlf]; rfl
    rw [copyLockForPath, hlf]
    by_cases hs : normalizePath sourcePath ∈ lf
    · by_cases hd : normalizePath destPath ∈ lf
      · simp only [hs, hd, if_true]
        refine ⟨by simp [hreg, hs], ?_, ?_⟩
        · rw [if_neg (by rw [hreg]; exact fun h => h.2 hd), hreg]
        · intro x hx
          exact Or.inl hx
      · simp only [hs, hd, if_true, if_false]
        have hupd : registry (updateFoldersWithLockedContent
            { inst with config := { inst.config with
                lockedFiles := some (lf ++ [normalizePath destPath]) } }) =
            lf ++ [normalizePath destPath] := by
          rw [registry_updateFolders]
          rfl
        refine ⟨by simp [hreg, hs], ?_, ?_⟩
        · rw [if_pos (by rw [hreg]; exact ⟨hs, hd⟩), hreg]
          exact hupd
        · intro x hx
          replace hx : x ∈ lf ++ [normalizePath destPath] := by
            rw [← hupd]
            exact hx
          rcases List.mem_append.mp hx with hx | hx
          · exact Or.inl (hreg ▸ hx)
          · exact Or.inr (by simpa using hx)
    · simp only [hs, if_false]
      refine ⟨by simp [hreg, hs], ?_, ?_⟩
      · rw [if_neg (by rw [hreg]; exact fun h => hs h.1), hreg]
      · intro x hx
        exact Or.inl hx

/-- Witness for C9 at a registry locking `a/b` and the nested `a/b/x`:
copying `a/b` to `a/c` locks `a/c` as well, but does not duplicate the
nested lock to `a/c/x`. -/
theorem copyLockForPath_spec_witness :
    registry (copyLockForPath ⟨⟨some [str "a/b", str "a/b/x"], some [str "a", str "a/b"]⟩⟩
        (str "a/b") (str "a/c")).2 = [str "a/b", str "a/b/x", str "a/c"] ∧
      str "a/c/x" ∉ registry (copyLockForPath ⟨⟨some [str "a/b", str "a/b/x"],
        some [str "a", str "a/b"]⟩⟩ (str "a/b") (str "a/c")).2 := by
  have h := (copyLockForPath_spec ⟨⟨some [str "a/b", str "a/b/x"], some [str "a", str "a/b"]⟩⟩
    (str "a/b") (str "a/c")).2.1
  rw [if_pos (by decide)] at h
  constructor
  · rw [h]
    decide
  · rw [h]
    decide

/-- Shared characterization of `removeLockForPath` on a duplicate-free
registry: membership afterwards, and the returned flag. -/
lemma removeLockForPath_char (inst : Instance) (targetPath : Path)
    (hnd : (registry inst).Nodup) :
    (∀ x, x ∈ registry (removeLockForPath inst targetPath).2 ↔
      x ∈ registry inst ∧ ¬(x = normalizePath targetPath ∨
        (normalizePath targetPath ++ ['/']) <+: x))
    ∧ ((removeLockForPath inst targetPath).1 = true ↔
      ∃ x ∈ registry inst, x = normalizePath targetPath ∨
        (normalizePath targetPath ++ ['/']) <+: x) := by
  rcases hlf : inst.config.lockedFiles with _ | lf
  · have hreg : registry inst = [] := by rw [registry, hlf]; rfl
    rw [removeLockForPath, hlf]
    simp [hreg]
  · have hreg : registry inst = lf := by rw [registry, hlf]; rfl
    have hndlf : lf.Nodup := hreg ▸ hnd
    rw [removeLockForPath, hlf]
    simp only [hreg]
    set nt := normalizePath targetPath with hnt
    set pred : Path → Bool := fun l => (nt ++ ['/']).isPrefixOf l with hpred
    have hprednt : pred nt = false := by
      rw [hpred]
      simp only [Bool.eq_false_iff]
      intro hp
      have := (List.isPrefixOf_iff_prefix.mp hp).length_le
      simp at this
    by_cases hin : nt ∈ lf
    · simp only [hin, if_true]
      have hnd1 : (lf.erase nt).Nodup := hndlf.erase nt
      have hrm : (lf.erase nt).filter pred ⊆ lf.erase nt := List.filter_subset' (lf.erase nt)
      have hrmnd : ((lf.erase nt).filter pred).Nodup := hnd1.filter pred
      have hmem := fun x => eraseAllFound_mem x ((lf.erase nt).filter pred)
        (true, lf.erase nt) hnd1 hrmnd (fun r hr => hrm hr)
      have hfst := eraseAllFound_fst ((lf.erase nt).filter pred) (true, lf.erase nt)
        hrmnd (fun r hr => hrm hr)
      rw [if_pos (by rw [hfst]; simp)]
      constructor
      · intro x
        have hx := hmem x
        have hupd : registry (updateFoldersWithLockedContent
            { inst with config := { inst.config with
                lockedFiles := some (eraseAllFound ((lf.erase nt).filter pred)
                  (true, lf.erase nt)).2 } }) =
            (eraseAllFound ((lf.erase nt).filter pred) (true, lf.erase nt)).2 := by
          rw [registry_updateFolders]
          rfl
        constructor
        · intro hmemx
          replace hmemx : x ∈ (eraseAllFound ((lf.erase nt).filter pred)
              (true, lf.erase nt)).2 := by
            rw [← hupd]
            exact hmemx
          obtain ⟨hx1, hx2⟩ := hx.mp hmemx
          obtain ⟨hxne, hxmem⟩ := hndlf.mem_erase_iff.mp hx1
          refine ⟨hxmem, ?_⟩
          rintro (hx3 | hx3)
          · exact hxne hx3
          · exact hx2 (List.mem_filter.mpr ⟨hx1, List.isPrefixOf_iff_prefix.mpr hx3⟩)
        · rintro ⟨hx1, hx2⟩
          push_neg at hx2
          obtain ⟨hx2a, hx2b⟩ := hx2
          replace hx := hx.mpr ⟨hndlf.mem_erase_iff.mpr ⟨hx2a, hx1⟩, fun hmemf =>
            hx2b (List.isPrefixOf_iff_prefix.mp (List.mem_filter.mp hmemf).2)⟩
          rw [← hupd] at hx
          exact hx
      · simp only [true_iff]
        exact ⟨nt, hin, Or.inl rfl⟩
    · simp only [hin, if_false]
      have hrm : lf.filter pred ⊆ lf := List.filter_subset' lf
      have hrmnd : (lf.filter pred).Nodup := hndlf.filter pred
      have hmem := fun x => eraseAllFound_mem x (lf.filter pred) (false, lf) hndlf hrmnd
        (fun r hr => hrm hr)
      have hfst := eraseAllFound_fst (lf.filter pred) (false, lf) hrmnd (fun r hr => hrm hr)
      by_cases hfe : lf.filter pred = []
      · rw [if_neg (by rw [hfst, hfe]; simp)]
        constructor
        · intro x
          rw [hreg]
          constructor
          · intro hx
            refine ⟨hx, ?_⟩
            rintro (hx2 | hx2)
            · exact hin (hx2 ▸ hx)
            · have : x ∈ lf.filter pred :=
                List.mem_filter.mpr ⟨hx, List.isPrefixOf_iff_prefix.mpr hx2⟩
              rw [hfe] at this
              simp at this
          · exact fun h => h.1
        · simp only [Bool.false_eq_true, false_iff]
          rintro ⟨x, hx1, hx2 | hx2⟩
          · exact hin (hx2 ▸ hx1)
          · have : x ∈ lf.filter pred :=
              List.mem_filter.mpr ⟨hx1, List.isPrefixOf_iff_prefix.mpr hx2⟩
            rw [hfe] at this
            simp at this
      · rw [if_pos (by rw [hfst]; simp [hfe])]
        have hupd : registry (updateFoldersWithLockedContent
            { inst with config := { inst.config with
                lockedFiles := some (eraseAllFound (lf.filter pred) (false, lf)).2 } }) =
            (eraseAllFound (lf.filter pred) (false, lf)).2 := by
          rw [registry_updateFolders]
          rfl
        constructor
        · intro x
          constructor
          · intro hmemx
            replace hmemx : x ∈ (eraseAllFound (lf.filter pred) (false, lf)).2 := by
              rw [← hupd]
              exact hmemx
            obtain ⟨hx1, hx2⟩ := hmem x |>.mp hmemx
            refine ⟨hx1, ?_⟩
            rintro (hx3 | hx3)
            · exact hin (hx3 ▸ hx1)
            · exact hx2 (List.mem_filter.mpr ⟨hx1, List.isPrefixOf_iff_prefix.mpr hx3⟩)
          · rintro ⟨hx1, hx2⟩
            push_neg at hx2
            replace hx := (hmem x).mpr ⟨hx1, fun hmemf =>
              hx2.2 (List.isPrefixOf_iff_prefix.mp (List.mem_filter.mp hmemf).2)⟩
            rw [← hupd] at hx
            exact hx
        · simp only [true_iff]
          match hq : lf.filter pred, hfe with
          | q :: qs, _ =>
            have hq1 : q ∈ lf.filter pred := by rw [hq]; exact List.mem_cons_self q qs
            exact ⟨q, hrm hq1, Or.inr
              (List.isPrefixOf_iff_prefix.mp (List.mem_filter.mp hq1).2)⟩

/-- C8: on a duplicate-free registry, `removeLockForPath` removes exactly
the direct entry equal to the normalized target and the entries under the
separator-bounded prefix, keeps every other entry, and reports whether any
removal happened. -/
theorem removeLockForPath_spec (inst : Instance) (targetPath : Path)
    (hnd : (registry inst).Nodup) :
    (∀ x, x ∈ registry (removeLockForPath inst targetPath).2 ↔
      x ∈ registry inst ∧ ¬(x = normalizePath targetPath ∨
        (normalizePath targetPath ++ ['/']) <+: x))
    ∧ ((removeLockForPath inst targetPath).1 = true ↔
      ∃ x ∈ registry inst, x = normalizePath targetPath ∨
        (normalizePath targetPath ++ ['/']) <+: x) :=
  removeLockForPath_char inst targetPath hnd

/-- Witness for C8 at a registry locking `a`, `a/b`, `a/b/c` and the
sibling `ab`: deleting `a` keeps exactly the sibling. -/
theorem removeLockForPath_spec_witness :
    (∀ x, x ∈ registry (removeLockForPath
        ⟨⟨some [str "a", str "a/b", str "a/b/c", str "ab"], some [str "a", str "a/b"]⟩⟩
        (str "a")).2 ↔
      x ∈ registry ⟨⟨some [str "a", str "a/b", str "a/b/c", str "ab"],
          some [str "a", str "a/b"]⟩⟩ ∧
        ¬(x = normalizePath (str "a") ∨ (normalizePath (str "a") ++ ['/']) <+: x))
    ∧ ((removeLockForPath
        ⟨⟨some [str "a", str "a/b", str "a/b/c", str "ab"], some [str "a", str "a/b"]⟩⟩
        (str "a")).1 = true ↔
      ∃ x ∈ registry ⟨⟨some [str "a", str "a/b", str "a/b/c", str "ab"],
          some [str "a", str "a/b"]⟩⟩,
        x = normalizePath (str "a") ∨ (normalizePath (str "a") ++ ['/']) <+: x) :=
  removeLockForPath_spec
    ⟨⟨some [str "a", str "a/b", str "a/b/c", str "ab"], some [str "a", str "a/b"]⟩⟩
    (str "a") (by decide)

/-- C5: whenever the ancestor index agrees with the closure of the registry
(as a set), `containsLockedPath` equals the plain registry scan — the fast
path never suppresses a positive answer — and it returns a registry entry
strictly below the target exactly when one exists. -/
theorem containsLockedPath_refines_scan (inst : Instance) (targetPath : Path)
    (_hidx1 : ∀ m ∈ ancestorIndex inst, m ∈ closureList (registry inst))
    (hidx2 : ∀ m ∈ closureList (registry inst), m ∈ ancestorIndex inst) :
    containsLockedPath inst targetPath =
      ((registry inst).find? fun lockedPath =>
        (normalizePath targetPath ++ ['/']).isPrefixOf (normalizePath lockedPath))
    ∧ (∀ L, containsLockedPath inst targetPath = some L →
        L ∈ registry inst ∧ (normalizePath targetPath ++ ['/']) <+: normalizePath L)
    ∧ (containsLockedPath inst targetPath = none ↔
        ∀ l ∈ registry inst, ¬ (normalizePath targetPath ++ ['/']) <+: normalizePath l) := by
  have hmain : containsLockedPath inst targetPath =
      ((registry inst).find? fun lockedPath =>
        (normalizePath targetPath ++ ['/']).isPrefixOf (normalizePath lockedPath)) := by
    simp only [containsLockedPath, registry, ancestorIndex] at *
    by_cases hemp : (inst.config.lockedFiles.getD []).isEmpty = true
    · rw [List.isEmpty_iff] at hemp
      simp [hemp]
    · simp only [hemp, Bool.false_eq_true, if_false]
      by_cases hlen : 0 < (inst.config.foldersWithLockedContent.getD []).length
      · simp only [hlen, if_true]
        by_cases hany : ((inst.config.foldersWithLockedContent.getD []).any
            fun markedFolder => markedFolder == normalizePath targetPath ||
              (normalizePath targetPath ++ ['/']).isPrefixOf markedFolder) = true
        · simp [hany]
        · simp only [hany, Bool.false_eq_true, if_false]
          symm
          rw [List.find?_eq_none]
          intro l hl hpl
          have hpre : (normalizePath targetPath ++ ['/']) <+: normalizePath l :=
            List.isPrefixOf_iff_prefix.mp hpl
          have hclos : normalizePath targetPath ∈
              closureList (inst.config.lockedFiles.getD []) :=
            mem_closureList.mpr ⟨l, hl, target_mem_getParentFolders hpre⟩
          have hfwmem := hidx2 (normalizePath targetPath) hclos
          exact hany (List.any_eq_true.mpr ⟨normalizePath targetPath, hfwmem, by simp⟩)
      · simp [hlen]
  refine ⟨hmain, ?_, ?_⟩
  · intro L hL
    rw [hmain] at hL
    have hpred := List.find?_some hL
    simp only [List.isPrefixOf_iff_prefix] at hpred
    exact ⟨List.mem_of_find?_eq_some hL, hpred⟩
  · rw [hmain, List.find?_eq_none]
    constructor
    · intro h l hl hp
      have hb : ¬ ((normalizePath targetPath ++ ['/']).isPrefixOf (normalizePath l) = true) :=
        h l hl
      exact hb (List.isPrefixOf_iff_prefix.mpr hp)
    · intro h l hl
      show ¬ ((normalizePath targetPath ++ ['/']).isPrefixOf (normalizePath l) = true)
      intro hp
      exact h l hl (List.isPrefixOf_iff_prefix.mp hp)

/-- Witness for C5 at the consistent one-entry state locking `a/b` with
index `[a]`: the accelerated check and the plain scan both find `a/b`
inside `a`. -/
theorem containsLockedPath_refines_scan_witness :
    containsLockedPath ⟨⟨some [str "a/b"], some [str "a"]⟩⟩ (str "a") =
      ((registry ⟨⟨some [str "a/b"], some [str "a"]⟩⟩).find? fun lockedPath =>
        (normalizePath (str "a") ++ ['/']).isPrefixOf (normalizePath lockedPath)) ∧
    containsLockedPath ⟨⟨some [str "a/b"], some [str "a"]⟩⟩ (str "a") = some (str "a/b") := by
  refine ⟨(containsLockedPath_refines_scan ⟨⟨some [str "a/b"], some [str "a"]⟩⟩ (str "a")
    (by decide) (by decide)).1, by decide⟩

/-- A positive `containsLockedPath` answer is always a registry entry whose
normalized form lies strictly below the normalized target. -/
lemma containsLockedPath_some {inst : Instance} {targetPath L : Path}
    (h : containsLockedPath inst targetPath = some L) :
    L ∈ registry inst ∧ (normalizePath targetPath ++ ['/']) <+: normalizePath L := by
  simp only [containsLockedPath] at h
  have hget : ((inst.config.lockedFiles.getD []).find? fun lockedPath =>
      (normalizePath targetPath ++ ['/']).isPrefixOf (normalizePath lockedPath)) = some L →
      L ∈ registry inst ∧ (normalizePath targetPath ++ ['/']) <+: normalizePath L := by
    intro hf
    have hpred := List.find?_some hf
    simp only [List.isPrefixOf_iff_prefix] at hpred
    exact ⟨List.mem_of_find?_eq_some hf, hpred⟩
  split at h
  · simp at h
  · split at h
    · split at h
      · exact hget h
      · simp at h
    · exact hget h

/-- A positive `containsLockedPath` answer is never the empty string. -/
lemma containsLockedPath_ne_nil {inst : Instance} {targetPath L : Path}
    (h : containsLockedPath inst targetPath = some L) : L ≠ [] := by
  intro hnil
  subst hnil
  have hpre := (containsLockedPath_some h).2
  have := hpre.length_le
  simp [normalizePath, slashify, collapseSlashes, stripTrailingSlash] at this

/-- A truthy `isPathOrContentsLocked` answer for a truthy target is itself
truthy (never the empty string). -/
lemma isPathOrContentsLocked_some_ne_nil {inst : Instance} {targetPath L : Path}
    (ht : targetPath ≠ []) (h : isPathOrContentsLocked inst targetPath = some L) :
    L ≠ [] := by
  rw [isPathOrContentsLocked] at h
  split at h
  · intro hnil
    exact ht (by simpa [hnil] using h.symm)
  · exact containsLockedPath_ne_nil h

lemma checkLockCollect_eq_filterMap (inst : Instance) :
    (targets : List Path) → ([] : Path) ∉ targets →
    checkLockCollect inst true targets = targets.filterMap (isPathOrContentsLocked inst)
  | [], _ => rfl
  | t :: ts, hne => by
    have htne : t ≠ [] := fun h => hne (by simp [← h])
    have htsne : ([] : Path) ∉ ts := fun h => hne (List.mem_cons_of_mem t h)
    have hrec := checkLockCollect_eq_filterMap inst ts htsne
    rcases hres : isPathOrContentsLocked inst t with _ | L
    · simp [checkLockCollect, hres, List.filterMap_cons, hrec]
    · have hLne : L ≠ [] := isPathOrContentsLocked_some_ne_nil htne hres
      simp [checkLockCollect, hres, List.filterMap_cons, hrec, hLne]

/-- Counterexample to C2: with `a/b` locked and the consistent index `[a]`,
checking the single target `a` (which merely contains a lock) returns the
underlying registry entry `a/b`, not the offending input path `a`. -/
theorem checkLockStatus_inputPath_cex :
    isPathOrContentsLocked ⟨⟨some [str "a/b"], some [str "a"]⟩⟩ (str "a") = some (str "a/b")
    ∧ checkLockStatus ⟨⟨some [str "a/b"], some [str "a"]⟩⟩ [str "a"] true =
        ⟨true, [str "a/b"]⟩
    ∧ str "a/b" ≠ str "a" := by
  refine ⟨by decide, by decide, by decide⟩

/-- C2 (amended): for targets free of the empty string, `checkLockStatus`
with content checking returns one entry per offending input path in input
order — the input path itself when the path or an ancestor is locked,
otherwise the matched registry entry — and `hasLocked` is true exactly when
some entry was collected. -/
theorem checkLockStatus_amended (inst : Instance) (targets : List Path)
    (hne : ([] : Path) ∉ targets) :
    (checkLockStatus inst targets true).lockedPaths =
      targets.filterMap (isPathOrContentsLocked inst)
    ∧ ((checkLockStatus inst targets true).hasLocked = true ↔
        (checkLockStatus inst targets true).lockedPaths ≠ [])
    ∧ (∀ t, isPathLocked inst t = true → isPathOrContentsLocked inst t = some t)
    ∧ (∀ t L, isPathLocked inst t = false → isPathOrContentsLocked inst t = some L →
        L ∈ registry inst ∧ (normalizePath t ++ ['/']) <+: normalizePath L) := by
  refine ⟨?_, ?_, ?_, ?_⟩
  · rw [checkLockStatus]
    exact checkLockCollect_eq_filterMap inst targets hne
  · rw [checkLockStatus]
    simp [List.length_pos]
  · intro t ht
    rw [isPathOrContentsLocked, if_pos ht]
  · intro t L ht hL
    rw [isPathOrContentsLocked, if_neg (by simp [ht])] at hL
    exact containsLockedPath_some hL

/-- Witness for the amended C2: with only `x` locked among the targets
`q` and `x`, the batch check flags exactly `x`, in input order. -/
theorem checkLockStatus_amended_witness :
    (checkLockStatus ⟨⟨some [str "x"], some []⟩⟩ [str "q", str "x"] true).lockedPaths =
      [str "q", str "x"].filterMap (isPathOrContentsLocked ⟨⟨some [str "x"], some []⟩⟩)
    ∧ checkLockStatus ⟨⟨some [str "x"], some []⟩⟩ [str "q", str "x"] true =
        ⟨true, [str "x"]⟩ := by
  refine ⟨(checkLockStatus_amended ⟨⟨some [str "x"], some []⟩⟩ [str "q", str "x"]
    (by decide)).1, by decide⟩

/-- Counterexample to C3: on the consistent state locking exactly `a`,
`addLock "a"` is a no-op (already locked) but the following
`removeLock "a"` still deletes the entry, so the round trip empties the
registry instead of restoring it. -/
theorem addLock_removeLock_roundtrip_cex :
    registry (removeLock (addLock ⟨⟨some [str "a"], some []⟩⟩ (str "a")).2 (str "a")).2 = []
    ∧ registry ⟨⟨some [str "a"], some []⟩⟩ = [str "a"]
    ∧ ancestorIndex ⟨⟨some [str "a"], some []⟩⟩ =
        closureList (registry ⟨⟨some [str "a"], some []⟩⟩)
    ∧ ([] : List Path) ≠ [str "a"] := by
  refine ⟨by decide, by decide, by decide, by decide⟩

/-- C3 (amended): when the normalized path is not yet locked and the
ancestor index is the rebuilt form of the registry, `addLock` followed by
`removeLock` on the same path restores registry and index exactly. -/
theorem addLock_removeLock_roundtrip (inst : Instance) (P : Path)
    (hnotin : normalizePath P ∉ registry inst)
    (hidx : ancestorIndex inst = closureList (registry inst)) :
    registry (removeLock (addLock inst P).2 P).2 = registry inst
    ∧ ancestorIndex (removeLock (addLock inst P).2 P).2 = ancestorIndex inst := by
  have h1 : (addLock inst P).2 = updateFoldersWithLockedContent
      { inst with config := { inst.config with
          lockedFiles := some (registry inst ++ [normalizePath P]) } } := by
    rw [addLock]
    rcases hlf : inst.config.lockedFiles with _ | lf
    · have hreg : registry inst = [] := by rw [registry, hlf]; rfl
      simp [hreg]
    · have hreg : registry inst = lf := by rw [registry, hlf]; rfl
      rw [hreg] at hnotin
      simp [hnotin, hreg]
  have hAlf : (addLock inst P).2.config.lockedFiles =
      some (registry inst ++ [normalizePath P]) := by
    rw [h1, lockedFiles_updateFolders]
  have herase : (registry inst ++ [normalizePath P]).erase (normalizePath P) =
      registry inst := by
    rw [List.erase_append_right _ hnotin, List.erase_cons_head, List.append_nil]
  have hmem : normalizePath P ∈ registry inst ++ [normalizePath P] :=
    List.mem_append_right _ (List.mem_singleton.mpr rfl)
  rw [removeLock, hAlf]
  simp only [hmem, if_true]
  constructor
  · rw [registry_updateFolders, registry]
    simp only [Option.getD_some]
    exact herase
  · rw [ancestorIndex_updateFolders, registry]
    simp only [Option.getD_some]
    rw [herase, hidx]

/-- Witness for the amended C3: locking the fresh path `a/b` over the
consistent state locking `x` and then unlocking it restores both fields. -/
theorem addLock_removeLock_roundtrip_witness :
    registry (removeLock (addLock ⟨⟨some [str "x"], some []⟩⟩ (str "a/b")).2 (str "a/b")).2 =
      registry ⟨⟨some [str "x"], some []⟩⟩
    ∧ ancestorIndex (removeLock (addLock ⟨⟨some [str "x"], some []⟩⟩ (str "a/b")).2
        (str "a/b")).2 = ancestorIndex ⟨⟨some [str "x"], some []⟩⟩ :=
  addLock_removeLock_roundtrip ⟨⟨some [str "x"], some []⟩⟩ (str "a/b") (by decide) (by decide)

/-- The data-model invariant: normalized, duplicate-free registry entries,
and an ancestor index extensionally equal to the closure of the registry. -/
def LockInvariant (inst : Instance) : Prop :=
  (∀ e ∈ registry inst, normalizePath e = e) ∧ (registry inst).Nodup
    ∧ (∀ m ∈ ancestorIndex inst, m ∈ closureList (registry inst))
    ∧ (∀ m ∈ closureList (registry inst), m ∈ ancestorIndex inst)

instance (inst : Instance) : Decidable (LockInvariant inst) := by
  rw [LockInvariant]
  infer_instance

/-- Any state produced by writing a registry and rebuilding the index
satisfies the invariant, provided the written registry is normalized and
duplicate-free. -/
lemma lockInvariant_update (inst : Instance) (lf2 : List Path)
    (hnorm : ∀ e ∈ lf2, normalizePath e = e) (hnd : lf2.Nodup) :
    LockInvariant (updateFoldersWithLockedContent
      { inst with config := { inst.config with lockedFiles := some lf2 } }) := by
  have hreg : registry (updateFoldersWithLockedContent
      { inst with config := { inst.config with lockedFiles := some lf2 } }) = lf2 := by
    rw [registry_updateFolders]
    rfl
  have hidx : ancestorIndex (updateFoldersWithLockedContent
      { inst with config := { inst.config with lockedFiles := some lf2 } }) =
      closureList lf2 := by
    rw [ancestorIndex_updateFolders]
    rfl
  refine ⟨?_, ?_, ?_, ?_⟩
  · rw [hreg]
    exact hnorm
  · rw [hreg]
    exact hnd
  · intro m hm
    rw [hreg]
    rw [hidx] at hm
    exact hm
  · intro m hm
    rw [hidx]
    rw [hreg] at hm
    exact hm

/-- C4: every lock-mutating operation preserves the data-model invariant:
the registry stays normalized and duplicate-free, and the ancestor index
equals the closure of the registry after the operation completes. -/
theorem lockInvariant_preserved (inst : Instance) (h : LockInvariant inst) :
    (∀ P, LockInvariant (addLock inst P).2)
    ∧ (∀ P, LockInvariant (removeLock inst P).2)
    ∧ (∀ P, LockInvariant (removeLockForPath inst P).2)
    ∧ (∀ S D, LockInvariant (copyLockForPath inst S D).2)
    ∧ (∀ S D, LockInvariant (moveLockForPath inst S D).2) := by
  obtain ⟨hnorm, hnd, hidx1, hidx2⟩ := h
  refine ⟨?_, ?_, ?_, ?_, ?_⟩
  · -- addLock
    intro P
    rcases hlf : inst.config.lockedFiles with _ | lf
    · simp only [addLock, hlf]
      refine lockInvariant_update inst [normalizePath P] ?_ (List.nodup_singleton _)
      intro e he
      rw [List.mem_singleton.mp he]
      exact normalizePath_idem P
    · have hreg : registry inst = lf := by rw [registry, hlf]; rfl
      simp only [addLock, hlf]
      by_cases hin : normalizePath P ∈ lf
      · simp only [hin, if_true]
        exact ⟨hnorm, hnd, hidx1, hidx2⟩
      · simp only [hin, if_false]
        refine lockInvariant_update inst (lf ++ [normalizePath P]) ?_ ?_
        · intro e he
          rcases List.mem_append.mp he with he | he
          · exact hnorm e (hreg ▸ he)
          · rw [List.mem_singleton.mp he]
            exact normalizePath_idem P
        · exact nodup_append_singleton (hreg ▸ hnd) hin
  · -- removeLock
    intro P
    rcases hlf : inst.config.lockedFiles with _ | lf
    · simp only [removeLock, hlf]
      have hreg : registry inst = [] := by rw [registry, hlf]; rfl
      have hreg2 : registry { inst with config :=
          { inst.config with lockedFiles := some [] } } = [] := rfl
      have hidxeq : ancestorIndex { inst with config :=
          { inst.config with lockedFiles := some [] } } = ancestorIndex inst := rfl
      refine ⟨?_, ?_, ?_, ?_⟩
      · rw [hreg2]
        simp
      · rw [hreg2]
        exact List.nodup_nil
      · intro m hm
        rw [hidxeq] at hm
        rw [hreg2, ← hreg]
        exact hidx1 m hm
      · intro m hm
        rw [hreg2, ← hreg] at hm
        rw [hidxeq]
        exact hidx2 m hm
    · have hreg : registry inst = lf := by rw [registry, hlf]; rfl
      simp only [removeLock, hlf]
      by_cases hin : normalizePath P ∈ lf
      · simp only [hin, if_true]
        refine lockInvariant_update inst (lf.erase (normalizePath P)) ?_ ?_
        · intro e he
          exact hnorm e (hreg ▸ List.erase_subset _ _ he)
        · exact (hreg ▸ hnd).erase _
      · simp only [hin, if_false]
        exact ⟨hnorm, hnd, hidx1, hidx2⟩
  · -- removeLockForPath
    intro P
    rcases hlf : inst.config.lockedFiles with _ | lf
    · simp only [removeLockForPath, hlf]
      exact ⟨hnorm, hnd, hidx1, hidx2⟩
    · have hreg : registry inst = lf := by rw [registry, hlf]; rfl
      simp only [removeLockForPath, hlf]
      split
      · split
        · refine lockInvariant_update inst _ ?_ ?_
          · intro e he
            have he2 := eraseAllFound_subset e _ _ he
            exact hnorm e (hreg ▸ List.erase_subset _ _ he2)
          · exact eraseAllFound_nodup _ _ ((hreg ▸ hnd).erase _)
        · exact ⟨hnorm, hnd, hidx1, hidx2⟩
      · split
        · refine lockInvariant_update inst _ ?_ ?_
          · intro e he
            have he2 := eraseAllFound_subset e _ _ he
            exact hnorm e (hreg ▸ he2)
          · exact eraseAllFound_nodup _ _ (hreg ▸ hnd)
        · exact ⟨hnorm, hnd, hidx1, hidx2⟩
  · -- copyLockForPath
    intro S D
    rcases hlf : inst.config.lockedFiles with _ | lf
    · simp only [copyLockForPath, hlf]
      exact ⟨hnorm, hnd, hidx1, hidx2⟩
    · have hreg : registry inst = lf := by rw [registry, hlf]; rfl
      simp only [copyLockForPath, hlf]
      by_cases hs : normalizePath S ∈ lf
      · by_cases hd : normalizePath D ∈ lf
        · simp only [hs, hd, if_true]
          exact ⟨hnorm, hnd, hidx1, hidx2⟩
        · simp only [hs, hd, if_true, if_false]
          refine lockInvariant_update inst (lf ++ [normalizePath D]) ?_ ?_
          · intro e he
            rcases List.mem_append.mp he with he | he
            · exact hnorm e (hreg ▸ he)
            · rw [List.mem_singleton.mp he]
              exact normalizePath_idem D
          · exact nodup_append_singleton (hreg ▸ hnd) hd
      · simp only [hs, if_false]
        exact ⟨hnorm, hnd, hidx1, hidx2⟩
  · -- moveLockForPath
    intro S D
    rcases hlf : inst.config.lockedFiles with _ | lf
    · simp only [moveLockForPath, hlf]
      exact ⟨hnorm, hnd, hidx1, hidx2⟩
    · have hreg : registry inst = lf := by rw [registry, hlf]; rfl
      simp only [moveLockForPath, hlf]
      have hlfnorm : ∀ e ∈ lf, normalizePath e = e := fun e he => hnorm e (hreg ▸ he)
      have hlfnd : lf.Nodup := hreg ▸ hnd
      set st1 : Bool × List Path :=
        (if normalizePath S ∈ lf then
          (true, if normalizePath D ∈ lf.erase (normalizePath S) then
            lf.erase (normalizePath S)
          else lf.erase (normalizePath S) ++ [normalizePath D])
        else (false, lf)) with hst1
      have hst1norm : ∀ e ∈ st1.2, normalizePath e = e := by
        rw [hst1]
        split
        · split
          · intro e he
            exact hlfnorm e (List.erase_subset _ _ he)
          · intro e he
            rcases List.mem_append.mp he with he | he
            · exact hlfnorm e (List.erase_subset _ _ he)
            · rw [List.mem_singleton.mp he]
              exact normalizePath_idem D
        · exact hlfnorm
      have hst1nd : st1.2.Nodup := by
        rw [hst1]
        split
        · split
          · exact hlfnd.erase _
          · rename_i hd
            exact nodup_append_singleton (hlfnd.erase _) hd
        · exact hlfnd
      split
      · refine lockInvariant_update inst _ ?_ ?_
        · intro e he
          rcases applyPathUpdates_subset e _ _ he with he2 | he2
          · exact hst1norm e he2
          · rcases List.mem_map.mp he2 with ⟨pr, hpr, hpre⟩
            rcases List.mem_map.mp hpr with ⟨l, hl, hpl⟩
            have hlmem := List.mem_filter.mp hl
            have hlpre : (normalizePath S ++ ['/']) <+: l :=
              List.isPrefixOf_iff_prefix.mp hlmem.2
            have hlnorm : normalizePath l = l := hst1norm l hlmem.1
            rw [← hpre, ← hpl]
            exact rewritten_path_normalized (normalizePath_idem D) hlnorm hlpre
        · exact applyPathUpdates_nodup _ _ hst1nd
      · exact ⟨hnorm, hnd, hidx1, hidx2⟩

/-- Witness for C4: the invariant holds for the two-entry state locking
`a/b` and `c`, and is preserved by a sample of each mutator. -/
theorem lockInvariant_preserved_witness :
    LockInvariant ⟨⟨some [str "a/b", str "c"], some [str "a"]⟩⟩
    ∧ LockInvariant (moveLockForPath ⟨⟨some [str "a/b", str "c"], some [str "a"]⟩⟩
        (str "a") (str "x/y")).2 := by
  refine ⟨by decide, (lockInvariant_preserved ⟨⟨some [str "a/b", str "c"], some [str "a"]⟩⟩
    (by decide)).2.2.2.2 (str "a") (str "x/y")⟩

/-! Prefix arithmetic used to analyse the move re-rooting. -/

lemma not_append_slash_prefix_self (s : Path) : ¬ (s ++ ['/']) <+: s := by
  intro h
  have := h.length_le
  simp at this

lemma rewrite_id {s l : Path} (hpre : (s ++ ['/']) <+: l) :
    s ++ '/' :: l.drop (s.length + 1) = l := by
  obtain ⟨t, ht⟩ := hpre
  have hlen : (s ++ ['/']).length = s.length + 1 := by simp
  have hdrop : l.drop (s.length + 1) = t := by
    rw [← ht, ← hlen, List.drop_left]
  rw [hdrop, ← ht]
  simp

/-- If `s ++ "/"` prefixes a rewritten path `d ++ "/" ++ rel`, then the
source and destination are equal or one lies strictly inside the other. -/
lemma prefix_append_slash_cases {s d rel : Path}
    (h : (s ++ ['/']) <+: (d ++ '/' :: rel)) :
    s = d ∨ (s ++ ['/']) <+: d ∨ (d ++ ['/']) <+: s := by
  have h2 : (d ++ ['/']) <+: (d ++ '/' :: rel) := ⟨rel, by simp⟩
  have hstep : ∀ a b : Path, (a ++ ['/']) <+: (b ++ ['/']) →
      a = b ∨ (a ++ ['/']) <+: b := by
    intro a b hp
    have hl : a.length + 1 ≤ b.length + 1 := by
      have := hp.length_le
      simpa using this
    by_cases heq : a.length = b.length
    · left
      have := hp.eq_of_length (by simp [heq])
      exact List.append_cancel_right this
    · right
      have hlt : a.length + 1 ≤ b.length := by omega
      have htake := List.prefix_iff_eq_take.mp hp
      rw [List.take_append_of_le_length (by simpa using hlt)] at htake
      rw [htake]
      exact List.take_prefix _ b
  rcases List.prefix_or_prefix_of_prefix h h2 with hp | hp
  · rcases hstep s d hp with hp2 | hp2
    · exact Or.inl hp2
    · exact Or.inr (Or.inl hp2)
  · rcases hstep d s hp with hp2 | hp2
    · exact Or.inl hp2.symm
    · exact Or.inr (Or.inr hp2)

lemma mem_move_pairs_fst {lf1 : List Path} {S D x : Path} :
    x ∈ ((lf1.filter fun l => (S ++ ['/']).isPrefixOf l).map
        fun l => (l, D ++ '/' :: l.drop (S.length + 1))).map Prod.fst ↔
      x ∈ lf1 ∧ (S ++ ['/']) <+: x := by
  rw [List.map_map]
  constructor
  · intro h
    rcases List.mem_map.mp h with ⟨l, hl, hx⟩
    have hf := List.mem_filter.mp hl
    have hx' : l = x := hx
    rw [← hx']
    exact ⟨hf.1, List.isPrefixOf_iff_prefix.mp hf.2⟩
  · rintro ⟨h1, h2⟩
    refine List.mem_map.mpr ⟨x, List.mem_filter.mpr ⟨h1, List.isPrefixOf_iff_prefix.mpr h2⟩, rfl⟩

lemma mem_move_pairs_snd {lf1 : List Path} {S D x : Path} :
    x ∈ ((lf1.filter fun l => (S ++ ['/']).isPrefixOf l).map
        fun l => (l, D ++ '/' :: l.drop (S.length + 1))).map Prod.snd ↔
      ∃ l ∈ lf1, (S ++ ['/']) <+: l ∧ x = D ++ '/' :: l.drop (S.length + 1) := by
  rw [List.map_map]
  constructor
  · intro h
    rcases List.mem_map.mp h with ⟨l, hl, hx⟩
    have hf := List.mem_filter.mp hl
    exact ⟨l, hf.1, List.isPrefixOf_iff_prefix.mp hf.2, hx.symm⟩
  · rintro ⟨l, hl, hpre, hx⟩
    exact List.mem_map.mpr ⟨l,
      List.mem_filter.mpr ⟨hl, List.isPrefixOf_iff_prefix.mpr hpre⟩, hx.symm⟩

/-- Membership in the re-rooted registry produced by the move fold, for any
source and destination with neither strictly inside the other. -/
lemma move_fold_mem {lf1 : List Path} (S D x : Path) (b : Bool) (hnd1 : lf1.Nodup)
    (hA : ¬ (S ++ ['/']) <+: D) (hB : ¬ (D ++ ['/']) <+: S) :
    x ∈ (applyPathUpdates
        ((lf1.filter fun l => (S ++ ['/']).isPrefixOf l).map
          fun l => (l, D ++ '/' :: l.drop (S.length + 1))) (b, lf1)).2 ↔
      (x ∈ lf1 ∧ ¬ (S ++ ['/']) <+: x) ∨
        ∃ l ∈ lf1, (S ++ ['/']) <+: l ∧ x = D ++ '/' :: l.drop (S.length + 1) := by
  set pairs := (lf1.filter fun l => (S ++ ['/']).isPrefixOf l).map
    fun l => (l, D ++ '/' :: l.drop (S.length + 1)) with hpairs
  have hfst : pairs.map Prod.fst = lf1.filter fun l => (S ++ ['/']).isPrefixOf l := by
    rw [hpairs, List.map_map]
    exact List.map_id _
  have hfstnd : (pairs.map Prod.fst).Nodup := by
    rw [hfst]
    exact hnd1.filter _
  have hsub : ∀ pr ∈ pairs, pr.1 ∈ (b, lf1).2 := by
    intro pr hpr
    rcases List.mem_map.mp hpr with ⟨l, hl, hpr2⟩
    rw [← hpr2]
    exact (List.mem_filter.mp hl).1
  by_cases hsd : S = D
  · subst hsd
    have hid : ∀ pr ∈ pairs, pr.2 = pr.1 := by
      intro pr hpr
      rcases List.mem_map.mp hpr with ⟨l, hl, hpr2⟩
      rw [← hpr2]
      exact rewrite_id (List.isPrefixOf_iff_prefix.mp (List.mem_filter.mp hl).2)
    rw [applyPathUpdates_mem_id x pairs (b, lf1) hnd1 hfstnd hsub hid]
    constructor
    · intro hx
      by_cases hp : (S ++ ['/']) <+: x
      · exact Or.inr ⟨x, hx, hp, (rewrite_id hp).symm⟩
      · exact Or.inl ⟨hx, hp⟩
    · rintro (⟨hx, _⟩ | ⟨l, hl, hpre, hx⟩)
      · exact hx
      · rw [hx, rewrite_id hpre]
        exact hl
  · have hdisj : ∀ pr ∈ pairs, ∀ qr ∈ pairs, pr.2 ≠ qr.1 := by
      intro pr hpr qr hqr heq
      rcases List.mem_map.mp hpr with ⟨l, _, hpr2⟩
      have hq1 : (S ++ ['/']) <+: qr.1 := by
        have := hsub qr hqr
        rcases List.mem_map.mp hqr with ⟨m, hm, hqr2⟩
        rw [← hqr2]
        exact List.isPrefixOf_iff_prefix.mp (List.mem_filter.mp hm).2
      rw [← heq, ← hpr2] at hq1
      rcases prefix_append_slash_cases hq1 with hc | hc | hc
      · exact hsd hc
      · exact hA hc
      · exact hB hc
    rw [applyPathUpdates_mem x pairs (b, lf1) hnd1 hfstnd hsub hdisj]
    constructor
    · rintro (⟨hx, hnx⟩ | hx)
      · rw [hfst] at hnx
        refine Or.inl ⟨hx, ?_⟩
        intro hp
        exact hnx (List.mem_filter.mpr ⟨hx, List.isPrefixOf_iff_prefix.mpr hp⟩)
      · rw [hpairs] at hx
        exact Or.inr (mem_move_pairs_snd.mp hx)
    · rintro (⟨hx, hnx⟩ | hx)
      · refine Or.inl ⟨hx, ?_⟩
        rw [hfst]
        intro hmf
        exact hnx (List.isPrefixOf_iff_prefix.mp (List.mem_filter.mp hmf).2)
      · refine Or.inr ?_
        rw [hpairs]
        exact mem_move_pairs_snd.mpr hx

/-- Counterexample to C7: with `a` locked (a consistent, normalized,
duplicate-free state) and both arguments already normalized, moving `a`
into its own subtree as `a/b` yields the registry `[a/b/b]` — the
destination `a/b` is *not* a registry entry afterwards, because the
phase-two re-rooting scans the list after phase one already inserted the
destination and rewrites it as well. -/
theorem moveLockForPath_selfmove_cex :
    registry (moveLockForPath ⟨⟨some [str "a"], some []⟩⟩ (str "a") (str "a/b")).2 =
      [str "a/b/b"]
    ∧ str "a/b" ∉
        registry (moveLockForPath ⟨⟨some [str "a"], some []⟩⟩ (str "a") (str "a/b")).2
    ∧ str "a" ∈ registry ⟨⟨some [str "a"], some []⟩⟩
    ∧ normalizePath (str "a") = str "a"
    ∧ normalizePath (str "a/b") = str "a/b" := by
  refine ⟨by decide, by decide, by decide, by decide, by decide⟩

/-- C7 (amended): on a duplicate-free registry, for normalized `S` and `D`
with neither strictly inside the other, the registry after
`moveLockForPath` consists exactly of: the untouched entries (neither `S`
nor below it), the destination `D` when `S` was directly locked, and every
entry below `S` re-rooted below `D`. -/
theorem moveLockForPath_amended (inst : Instance) (S D : Path)
    (hS : normalizePath S = S) (hD : normalizePath D = D)
    (hnd : (registry inst).Nodup)
    (hA : ¬ (S ++ ['/']) <+: D) (hB : ¬ (D ++ ['/']) <+: S) :
    ∀ x, x ∈ registry (moveLockForPath inst S D).2 ↔
      ((x ∈ registry inst ∧ x ≠ S ∧ ¬ (S ++ ['/']) <+: x)
      ∨ (S ∈ registry inst ∧ x = D)
      ∨ ∃ l ∈ registry inst, (S ++ ['/']) <+: l ∧
          x = D ++ '/' :: l.drop (S.length + 1)) := by
  intro x
  rcases hlf : inst.config.lockedFiles with _ | lf
  · have hreg : registry inst = [] := by rw [registry, hlf]; rfl
    have hres : registry (moveLockForPath inst S D).2 = [] := by
      simp only [moveLockForPath, hlf]
      exact hreg
    rw [hres, hreg]
    simp
  · have hreg : registry inst = lf := by rw [registry, hlf]; rfl
    rw [hreg]
    have hndlf : lf.Nodup := hreg ▸ hnd
    by_cases hs : S ∈ lf
    · set lf1 := if D ∈ lf.erase S then lf.erase S else lf.erase S ++ [D] with hlf1def
      have hlf1nd : lf1.Nodup := by
        rw [hlf1def]
        split
        · exact hndlf.erase S
        · rename_i hdm
          exact nodup_append_singleton (hndlf.erase S) hdm
      have hlf1mem : ∀ y, y ∈ lf1 ↔ (y ∈ lf ∧ y ≠ S) ∨ y = D := by
        intro y
        rw [hlf1def]
        split
        · rename_i hdm
          rw [hndlf.mem_erase_iff]
          constructor
          · rintro ⟨h1, h2⟩
            exact Or.inl ⟨h2, h1⟩
          · rintro (⟨h1, h2⟩ | h1)
            · exact ⟨h2, h1⟩
            · subst h1
              exact hndlf.mem_erase_iff.mp hdm
        · rw [List.mem_append, hndlf.mem_erase_iff]
          constructor
          · rintro (⟨h1, h2⟩ | h1)
            · exact Or.inl ⟨h2, h1⟩
            · exact Or.inr (by simpa using h1)
          · rintro (⟨h1, h2⟩ | h1)
            · exact Or.inl ⟨h2, h1⟩
            · exact Or.inr (by simp [h1])
      have hres : registry (moveLockForPath inst S D).2 =
          (applyPathUpdates
            ((lf1.filter fun l => (S ++ ['/']).isPrefixOf l).map
              fun l => (l, D ++ '/' :: l.drop (S.length + 1))) (true, lf1)).2 := by
        rw [hlf1def]
        simp only [moveLockForPath, hlf, hS, hD]
        rw [if_pos hs]
        dsimp only
        rw [if_pos (applyPathUpdates_true _ _ rfl)]
        dsimp only
        rw [registry_updateFolders]
        rfl
      rw [hres, move_fold_mem S D x true hlf1nd hA hB]
      constructor
      · rintro (⟨hx1, hx2⟩ | ⟨l, hl, hpre, hx⟩)
        · rcases (hlf1mem x).mp hx1 with ⟨hxl, hxs⟩ | hxd
          · exact Or.inl ⟨hxl, hxs, hx2⟩
          · exact Or.inr (Or.inl ⟨hs, hxd⟩)
        · rcases (hlf1mem l).mp hl with ⟨hll, _⟩ | hld
          · exact Or.inr (Or.inr ⟨l, hll, hpre, hx⟩)
          · exact absurd (hld ▸ hpre) hA
      · rintro (⟨hx1, hx2, hx3⟩ | ⟨_, hxd⟩ | ⟨l, hl, hpre, hx⟩)
        · exact Or.inl ⟨(hlf1mem x).mpr (Or.inl ⟨hx1, hx2⟩), hx3⟩
        · refine Or.inl ⟨(hlf1mem x).mpr (Or.inr hxd), ?_⟩
          rw [hxd]
          exact hA
        · refine Or.inr ⟨l, (hlf1mem l).mpr (Or.inl ⟨hl, ?_⟩), hpre, hx⟩
          intro he
          subst he
          exact not_append_slash_prefix_self l hpre
    · by_cases hpe : (lf.filter fun l => (S ++ ['/']).isPrefixOf l) = []
      · have hres : registry (moveLockForPath inst S D).2 = lf := by
          simp only [moveLockForPath, hlf, hS, hD]
          rw [if_neg hs]
          dsimp only
          rw [hpe]
          simp only [List.map_nil]
          rw [if_neg (by simp [applyPathUpdates])]
          dsimp only
          rw [registry, hlf]
          rfl
        rw [hres]
        constructor
        · intro hx
          refine Or.inl ⟨hx, ?_, ?_⟩
          · intro he
            subst he
            exact hs hx
          · intro hp
            have hmf : x ∈ lf.filter fun l => (S ++ ['/']).isPrefixOf l :=
              List.mem_filter.mpr ⟨hx, List.isPrefixOf_iff_prefix.mpr hp⟩
            rw [hpe] at hmf
            simp at hmf
        · rintro (⟨hx, _, _⟩ | ⟨hsl, _⟩ | ⟨l, hl, hpre, _⟩)
          · exact hx
          · exact absurd hsl hs
          · have hmf : l ∈ lf.filter fun m => (S ++ ['/']).isPrefixOf m :=
              List.mem_filter.mpr ⟨hl, List.isPrefixOf_iff_prefix.mpr hpre⟩
            rw [hpe] at hmf
            simp at hmf
      · have hfire : (applyPathUpdates
            ((lf.filter fun l => (S ++ ['/']).isPrefixOf l).map
              fun l => (l, D ++ '/' :: l.drop (S.length + 1))) (false, lf)).1 = true := by
          by_contra hc
          rw [Bool.not_eq_true] at hc
          obtain ⟨_, _, h3⟩ := applyPathUpdates_false _ _ hc
          match hq : (lf.filter fun l => (S ++ ['/']).isPrefixOf l), hpe with
          | q :: qs, _ =>
            have hqf : q ∈ lf.filter fun l => (S ++ ['/']).isPrefixOf l := by
              rw [hq]
              exact List.mem_cons_self q qs
            have hqmem : (q, D ++ '/' :: q.drop (S.length + 1)) ∈
                (lf.filter fun l => (S ++ ['/']).isPrefixOf l).map
                  fun l => (l, D ++ '/' :: l.drop (S.length + 1)) :=
              List.mem_map.mpr ⟨q, hqf, rfl⟩
            exact h3 _ hqmem (List.mem_filter.mp hqf).1
        have hres : registry (moveLockForPath inst S D).2 =
            (applyPathUpdates
              ((lf.filter fun l => (S ++ ['/']).isPrefixOf l).map
                fun l => (l, D ++ '/' :: l.drop (S.length + 1))) (false, lf)).2 := by
          simp only [moveLockForPath, hlf, hS, hD]
          rw [if_neg hs]
          dsimp only
          rw [if_pos hfire]
          dsimp only
          rw [registry_updateFolders]
          rfl
        rw [hres, move_fold_mem S D x false hndlf hA hB]
        constructor
        · rintro (⟨hx1, hx2⟩ | ⟨l, hl, hpre, hx⟩)
          · exact Or.inl ⟨hx1, fun he => hs (he ▸ hx1), hx2⟩
          · exact Or.inr (Or.inr ⟨l, hl, hpre, hx⟩)
        · rintro (⟨hx1, _, hx3⟩ | ⟨hsl, _⟩ | ⟨l, hl, hpre, hx⟩)
          · exact Or.inl ⟨hx1, hx3⟩
          · exact absurd hsl hs
          · exact Or.inr ⟨l, hl, hpre, hx⟩

/-- Witness for the amended C7, at the spec's own example: with
`a/b/c.txt` locked, moving `a/b` to `x/y` leaves exactly `x/y/c.txt`
locked and `a/b/c.txt` gone. -/
theorem moveLockForPath_amended_witness :
    (str "x/y/c.txt" ∈ registry (moveLockForPath
        ⟨⟨some [str "a/b/c.txt"], some [str "a", str "a/b"]⟩⟩ (str "a/b") (str "x/y")).2 ↔
      ((str "x/y/c.txt" ∈ registry ⟨⟨some [str "a/b/c.txt"], some [str "a", str "a/b"]⟩⟩
          ∧ str "x/y/c.txt" ≠ str "a/b" ∧ ¬ (str "a/b" ++ ['/']) <+: str "x/y/c.txt")
      ∨ (str "a/b" ∈ registry ⟨⟨some [str "a/b/c.txt"], some [str "a", str "a/b"]⟩⟩
          ∧ str "x/y/c.txt" = str "x/y")
      ∨ ∃ l ∈ registry ⟨⟨some [str "a/b/c.txt"], some [str "a", str "a/b"]⟩⟩,
          (str "a/b" ++ ['/']) <+: l ∧
            str "x/y/c.txt" = str "x/y" ++ '/' :: l.drop ((str "a/b").length + 1)))
    ∧ registry (moveLockForPath ⟨⟨some [str "a/b/c.txt"], some [str "a", str "a/b"]⟩⟩
        (str "a/b") (str "x/y")).2 = [str "x/y/c.txt"]
    ∧ str "a/b/c.txt" ∉ registry (moveLockForPath
        ⟨⟨some [str "a/b/c.txt"], some [str "a", str "a/b"]⟩⟩ (str "a/b") (str "x/y")).2 := by
  refine ⟨moveLockForPath_amended ⟨⟨some [str "a/b/c.txt"], some [str "a", str "a/b"]⟩⟩
    (str "a/b") (str "x/y") (by decide) (by decide) (by decide) (by decide) (by decide)
    (str "x/y/c.txt"), by decide, by decide⟩

/-! Facts about the middleware configuration table and scan loop. -/

lemma findConfig_facts {event : String} {config : FileLockCheckConfig}
    (h : findConfig event = some config) :
    ("file/").data.isPrefixOf event.data = true ∧ config.event = event ∧
      config.adminOnly = false := by
  rw [findConfig] at h
  have hev : config.event = event := by simpa using List.find?_some h
  have hmem := List.mem_of_find?_eq_some h
  simp only [FILE_LOCK_CHECK_CONFIGS, List.mem_cons, List.not_mem_nil, or_false] at hmem
  subst hev
  rcases hmem with hc | hc | hc | hc | hc | hc | hc <;> subst hc <;>
    exact ⟨by decide, rfl, rfl⟩

lemma checkTargetsLockedLoop_some_ne {inst : Instance} {checkContents : Bool} :
    {targets : List Path} → ([] : Path) ∉ targets → {p : Path} →
    checkTargetsLockedLoop inst checkContents targets = some p → p ≠ []
  | [], _, p, h => by simp [checkTargetsLockedLoop] at h
  | t :: ts, hne, p, h => by
    have htne : t ≠ [] := fun he => hne (by simp [← he])
    have htsne : ([] : Path) ∉ ts := fun he => hne (List.mem_cons_of_mem t he)
    by_cases hcc : checkContents = true
    · rcases hres : isPathOrContentsLocked inst t with _ | s
      · simp only [checkTargetsLockedLoop, hcc, if_true, hres] at h
        exact checkTargetsLockedLoop_some_ne htsne h
      · simp only [checkTargetsLockedLoop, hcc, if_true, hres] at h
        rw [if_pos (isPathOrContentsLocked_some_ne_nil htne hres)] at h
        intro hp
        exact isPathOrContentsLocked_some_ne_nil htne hres
          (by rw [Option.some.inj h]; exact hp)
    · by_cases hl : isPathLocked inst t = true
      · simp only [checkTargetsLockedLoop, hcc, if_false, hl, if_true] at h
        intro hp
        exact htne (by rw [Option.some.inj h]; exact hp)
      · simp only [checkTargetsLockedLoop, hcc, if_false, hl] at h
        exact checkTargetsLockedLoop_some_ne htsne h

lemma checkTargetsLockedLoop_none_iff {inst : Instance} {checkContents : Bool} :
    {targets : List Path} → ([] : Path) ∉ targets →
    (checkTargetsLockedLoop inst checkContents targets = none ↔
      ¬ ∃ t ∈ targets, (if checkContents then (isPathOrContentsLocked inst t).isSome
        else isPathLocked inst t) = true)
  | [], _ => by simp [checkTargetsLockedLoop]
  | t :: ts, hne => by
    have htne : t ≠ [] := fun he => hne (by simp [← he])
    have htsne : ([] : Path) ∉ ts := fun he => hne (List.mem_cons_of_mem t he)
    have ih := @checkTargetsLockedLoop_none_iff inst checkContents ts htsne
    by_cases hcc : checkContents = true
    · subst hcc
      rcases hres : isPathOrContentsLocked inst t with _ | s
      · simp only [checkTargetsLockedLoop, if_true, hres]
        rw [ih]
        simp [hres]
      · simp only [checkTargetsLockedLoop, if_true, hres]
        rw [if_pos (isPathOrContentsLocked_some_ne_nil htne hres)]
        constructor
        · intro h
          exact Option.noConfusion h
        · intro h
          exact absurd ⟨t, List.mem_cons_self t ts, by simp [hres]⟩ h
    · have hcc' : checkContents = false := by
        rcases checkContents with _ | _
        · rfl
        · exact absurd rfl hcc
      subst hcc'
      by_cases hl : isPathLocked inst t = true
      · simp only [checkTargetsLockedLoop, Bool.false_eq_true, if_false, hl, if_true]
        constructor
        · intro h
          exact Option.noConfusion h
        · intro h
          exact absurd ⟨t, List.mem_cons_self t ts, by simp [hl]⟩ h
      · simp only [checkTargetsLockedLoop, Bool.false_eq_true, if_false, hl]
        rw [ih]
        constructor
        · intro h he
          rcases he with ⟨q, hq, hql⟩
          rcases List.mem_cons.mp hq with hq2 | hq2
          · subst hq2
            exact hl hql
          · exact h ⟨q, hq2, hql⟩
        · intro h he
          rcases he with ⟨q, hq, hql⟩
          exact h ⟨q, List.mem_cons_of_mem t hq, hql⟩

/-- Counterexample to C1: a non-admin `file/delete` whose single candidate
is the empty string is forwarded even though the empty string is locked
(`isPathOrContentsLocked` yields it) — the middleware's JS truthiness test
drops the empty-string lock result. -/
theorem fileLockMiddleware_emptyString_cex :
    fileLockMiddleware
        (fun u => if u = "u1" then some ⟨⟨some [str ""], some []⟩⟩ else none)
        "file/delete" ⟨false, some "u1", none, none, some [str ""]⟩ = Decision.forward
    ∧ isPathOrContentsLocked ⟨⟨some [str ""], some []⟩⟩ (str "") = some (str "")
    ∧ deleteConfig.getTargets ⟨false, some "u1", none, none, some [str ""]⟩ = [str ""]
    ∧ findConfig "file/delete" = some deleteConfig := by
  refine ⟨by decide, by decide, by decide, rfl⟩

/-- C1 (amended): for a governed event with a resolvable instance and no
empty-string candidate, the middleware forwards admin requests
unconditionally, forwards when the extractor yields no candidates, and
otherwise rejects the whole batch exactly when some candidate is locked
under the operation's check mode (`isPathLocked` for list-style configs,
`isPathOrContentsLocked` for content-checking ones); on rejection the
decision is `reject`, so the underlying handler is never invoked. -/
theorem fileLockMiddleware_governed_amended
    (lookup : String → Option Instance) (event : String) (data : FileData)
    (config : FileLockCheckConfig) (u : String) (inst : Instance)
    (hcfg : findConfig event = some config)
    (hu : data.instanceUuid = some u) (hu2 : u ≠ "")
    (hinst : lookup u = some inst)
    (hne : ([] : Path) ∉ config.getTargets data) :
    (data.isAdmin = true → fileLockMiddleware lookup event data = Decision.forward)
    ∧ (config.getTargets data = [] →
        fileLockMiddleware lookup event data = Decision.forward)
    ∧ (data.isAdmin = false → config.getTargets data ≠ [] →
        (fileLockMiddleware lookup event data = Decision.reject ↔
          ∃ t ∈ config.getTargets data,
            (if config.checkContents then (isPathOrContentsLocked inst t).isSome
             else isPathLocked inst t) = true)) := by
  obtain ⟨hpre, _, hadm⟩ := findConfig_facts hcfg
  refine ⟨?_, ?_, ?_⟩
  · intro hAdm
    rw [fileLockMiddleware, if_neg (not_not_intro hpre)]
    simp only [hcfg]
    rw [if_neg (by simp [hadm]), if_pos hAdm]
  · intro hempty
    rw [fileLockMiddleware, if_neg (not_not_intro hpre)]
    simp only [hcfg]
    rw [if_neg (by simp [hadm])]
    by_cases hAdm : data.isAdmin = true
    · rw [if_pos hAdm]
    · rw [if_neg hAdm]
      simp only [hu]
      rw [if_neg hu2, if_pos (by simp [hempty])]
  · intro hAdm hnempty
    rw [fileLockMiddleware, if_neg (not_not_intro hpre)]
    simp only [hcfg]
    rw [if_neg (by simp [hadm]), if_neg (by simp [hAdm])]
    simp only [hu]
    rw [if_neg hu2]
    rw [if_neg (by simp [List.isEmpty_iff, hnempty])]
    simp only [checkTargetsLocked, hinst]
    rcases hloop : checkTargetsLockedLoop inst config.checkContents
        (config.getTargets data) with _ | p
    · simp only [hloop]
      have hnex := (checkTargetsLockedLoop_none_iff hne).mp hloop
      constructor
      · intro h
        exact absurd h (by simp)
      · intro hex
        exact absurd hex hnex
    · simp only [hloop]
      rw [if_pos (checkTargetsLockedLoop_some_ne hne hloop)]
      have hnn : checkTargetsLockedLoop inst config.checkContents
          (config.getTargets data) ≠ none := by
        rw [hloop]
        simp
      constructor
      · intro _
        by_contra hnex
        exact hnn ((checkTargetsLockedLoop_none_iff hne).mpr hnex)
      · intro _
        rfl

/-- Witness for the amended C1: a non-admin `file/delete` of the locked
path `a` on instance `u1`. -/
theorem fileLockMiddleware_governed_amended_witness :
    ((⟨false, some "u1", none, none, some [str "a"]⟩ : FileData).isAdmin = true →
      fileLockMiddleware (fun u => if u = "u1" then some ⟨⟨some [str "a"], some []⟩⟩ else none)
        "file/delete" ⟨false, some "u1", none, none, some [str "a"]⟩ = Decision.forward)
    ∧ (deleteConfig.getTargets ⟨false, some "u1", none, none, some [str "a"]⟩ = [] →
        fileLockMiddleware (fun u => if u = "u1" then some ⟨⟨some [str "a"], some []⟩⟩ else none)
          "file/delete" ⟨false, some "u1", none, none, some [str "a"]⟩ = Decision.forward)
    ∧ ((⟨false, some "u1", none, none, some [str "a"]⟩ : FileData).isAdmin = false →
        deleteConfig.getTargets ⟨false, some "u1", none, none, some [str "a"]⟩ ≠ [] →
        (fileLockMiddleware (fun u => if u = "u1" then some ⟨⟨some [str "a"], some []⟩⟩ else none)
            "file/delete" ⟨false, some "u1", none, none, some [str "a"]⟩ = Decision.reject ↔
          ∃ t ∈ deleteConfig.getTargets ⟨false, some "u1", none, none, some [str "a"]⟩,
            (if deleteConfig.checkContents then
              (isPathOrContentsLocked ⟨⟨some [str "a"], some []⟩⟩ t).isSome
             else isPathLocked ⟨⟨some [str "a"], some []⟩⟩ t) = true)) :=
  fileLockMiddleware_governed_amended
    (fun u => if u = "u1" then some ⟨⟨some [str "a"], some []⟩⟩ else none)
    "file/delete" ⟨false, some "u1", none, none, some [str "a"]⟩ deleteConfig "u1"
    ⟨⟨some [str "a"], some []⟩⟩ rfl rfl (by decide) (by decide) (by decide)

/-- C10: the configuration table governs only the seven listed events;
`file/touch` and `file/mkdir` have no entry, any event without an entry is
always forwarded (admin or not), and the touch/mkdir handlers then clear
the direct lock at the normalized target and every lock nested under it. -/
theorem ungoverned_events_spec :
    findConfig "file/touch" = none
    ∧ findConfig "file/mkdir" = none
    ∧ FILE_LOCK_CHECK_CONFIGS.map FileLockCheckConfig.event =
        ["file/list", "file/edit", "file/chmod", "file/copy", "file/move",
          "file/delete", "file/compress"]
    ∧ (∀ lookup event data, findConfig event = none →
        fileLockMiddleware lookup event data = Decision.forward)
    ∧ (∀ inst P, (registry inst).Nodup →
        (∀ x, x ∈ registry (fileTouchHandler inst P) ↔
          x ∈ registry inst ∧ ¬(x = normalizePath P ∨
            (normalizePath P ++ ['/']) <+: x))
        ∧ fileMkdirHandler inst P = fileTouchHandler inst P) := by
  refine ⟨rfl, rfl, rfl, ?_, ?_⟩
  · intro lookup event data hnone
    rw [fileLockMiddleware]
    by_cases hpre : ("file/").data.isPrefixOf event.data = true
    · rw [if_neg (not_not_intro hpre)]
      simp only [hnone]
    · rw [if_pos hpre]
  · intro inst P hnd
    exact ⟨(removeLockForPath_char inst P hnd).1, rfl⟩

/-- Witness for C10: a non-admin `file/touch` request is forwarded, and on
the registry locking `a` and `a/b` the touch handler at `a` removes `a/b`. -/
theorem ungoverned_events_spec_witness :
    fileLockMiddleware (fun _ => some ⟨⟨some [str "a", str "a/b"], some [str "a"]⟩⟩)
      "file/touch" ⟨false, some "u1", some (str "a"), none, none⟩ = Decision.forward
    ∧ (str "a/b" ∈ registry (fileTouchHandler
          ⟨⟨some [str "a", str "a/b"], some [str "a"]⟩⟩ (str "a")) ↔
        str "a/b" ∈ registry ⟨⟨some [str "a", str "a/b"], some [str "a"]⟩⟩ ∧
          ¬(str "a/b" = normalizePath (str "a") ∨
            (normalizePath (str "a") ++ ['/']) <+: str "a/b")) :=
  ⟨ungoverned_events_spec.2.2.2.1 _ "file/touch" _ rfl,
    (ungoverned_events_spec.2.2.2.2 ⟨⟨some [str "a", str "a/b"], some [str "a"]⟩⟩
      (str "a") (by decide)).1 (str "a/b")⟩

end MCSM
